import Mathlib

/-! # QuantizedMelPowerSpectrogram: a shallow embedding

Embedding of the class `QuantizedMelPowerSpectrogram`
(`src/ameba_doorbell_notifier/QuantizedMelPowerSpectrogram.h`).

Conventions of the embedding:

* `float` values are elements of an ordered field `F` with a floor function
  (exact arithmetic: no rounding error, no NaN, no infinities).  Every
  definition is computable at `F = ℚ`.  Where the rounding of a binary32
  operation changes the result (`read`: a rounded quotient can reach the next
  integer), the operations are parameters (`FloatOps`, `readWith`); `read`
  itself is the instance with exact operations.
* `int` values are integers of `ℤ`; the sizes that the constructor receives
  are natural numbers (the class is only used with non-negative geometry).
  The counts handled here are far below `2^31`, so no wrap-around is modelled.
* A `float` occupies four bytes.
* A call that writes outside an array it owns, or whose length argument is
  negative, has no defined result: it is `none`.  A call that only *reads*
  past the end of an array obtains whatever the memory holds there; those
  values are given by `Platform.stray`.  They are elements of `F` as well: a
  stray cell holding a NaN or an infinity is outside the embedding, so a bound
  proved here for a value computed from stray cells says nothing about the
  code in that case.
* The numeric library routines (`arm_rfft_fast_f32`, `arm_sqrt_f32`, `logf`,
  `arm_cos_f32`) are fields of `Platform`.  Statements about the exact cosine
  or logarithm are made for `F = ℝ` and a platform whose `cos`, `pi`, `logf`
  are `Real.cos`, `Real.pi`, `Real.log`.
* The life cycle of the three owned buffers (absent or present) is the state
  `Object`; `Engine` is the state between a successful `begin` and `end`.
-/

namespace QuantizedMelPowerSpectrogram

set_option linter.unusedSectionVars false

/-- Arrays that the code reads with a computed index. -/
inductive Region where
  | data
  | window
  | samples
  | weights
  | spectrum
  deriving DecidableEq, Repr

/-- Library routines and ambient memory that the class depends on. -/
structure Platform (F : Type) where
  /-- Forward `arm_rfft_fast_f32`: packed spectrum of a real sequence. -/
  rfft : List F → List F
  /-- Square root used by `arm_cmplx_mag_f32`. -/
  sqrt : F → F
  /-- Natural logarithm `logf`. -/
  logf : F → F
  /-- Cosine `arm_cos_f32`. -/
  cos : F → F
  /-- Constant `PI`. -/
  pi : F
  /-- Whether `arm_rfft_fast_init_f32` accepts the transform size. -/
  rfftInitOk : Nat → Bool
  /-- Value of a float after its first `b` bytes (`1 ≤ b ≤ 3`) are set to zero. -/
  zeroLowBytes : Nat → F → F
  /-- Content of the memory found past the end of an array. -/
  stray : Region → Nat → F

/-- Constructor arguments of the class. -/
structure Config (F : Type) where
  width : Nat
  numMelBins : Nat
  frameLength : Nat
  frameStep : Nat
  fftSize : Nat
  topDb : Int
  weightMatrix : List F

/-- State of an engine whose three buffers are allocated. -/
structure Engine (F : Type) where
  width : Nat
  numMelBins : Nat
  frameLength : Nat
  frameStep : Nat
  fftSize : Nat
  topDb : Int
  weightMatrix : List F
  inputScale : F
  outputScale : F
  outputZeroPoint : Int
  data : List F
  audioBuffer : List F
  audioBufferIndex : Int
  window : List F

variable {F : Type} [LinearOrderedField F] [FloorRing F]

/-- Member `_fftMagSize`, set by the constructor to `fftSize / 2 + 1`. -/
def fftMagSize (st : Engine F) : Nat :=
  st.fftSize / 2 + 1

/-- The buffers have the sizes with which `begin` allocates them. -/
def WellFormed (st : Engine F) : Prop :=
  st.data.length = st.width * st.numMelBins ∧
  st.audioBuffer.length = st.frameLength ∧
  st.window.length = st.frameLength

/-- Read of cell `j` of an array; past the end the ambient memory is read
(`Platform.stray`, an element of `F`). -/
def peek (P : Platform F) (reg : Region) (xs : List F) (j : Nat) : F :=
  match xs[j]? with
  | some x => x
  | none => P.stray reg j

/-- Effect of `memset(p, 0x00, nbytes)` on an array of floats: whole floats
are zeroed four bytes at a time, a last float may be zeroed in part. -/
def memsetZero (P : Platform F) : List F → Nat → List F
  | [], _ => []
  | x :: xs, n =>
    if 4 ≤ n then 0 :: memsetZero P xs (n - 4)
    else if 0 < n then P.zeroLowBytes n x :: xs
    else x :: xs

/-- Effect of `memmove(p, p + off, n floats)` on the array at `p`. -/
def memmoveDown (xs : List F) (off n : Nat) : Option (List F) :=
  if off + n ≤ xs.length then some ((xs.drop off).take n ++ xs.drop n) else none

/-- Store of the values `vals` into consecutive cells from `pos` on. -/
def store (xs : List F) (pos : Nat) (vals : List F) : Option (List F) :=
  if pos + vals.length ≤ xs.length then
    some (xs.take pos ++ vals ++ xs.drop (pos + vals.length))
  else none

/-- Hanning window coefficient `i`, as `begin` computes it. -/
def windowCoeff (P : Platform F) (frameLength i : Nat) : F :=
  (1 / 2) * (1 - P.cos (2 * P.pi * (i : F) / (frameLength : F)))

/-- Method `begin`: `freshData` and `freshAudio` are the contents of the newly
allocated arrays.  The result is `none` when `begin` returns 0 (the transform
size is refused) or when the partial `memset` of the audio buffer would leave
the array. -/
def begin (P : Platform F) (cfg : Config F) (inputScale outputScale : F)
    (outputZeroPoint : Int) (freshData freshAudio : Nat → F) : Option (Engine F) :=
  if cfg.frameLength < cfg.frameStep then none
  else if P.rfftInitOk cfg.fftSize = false then none
  else some
    { width := cfg.width
      numMelBins := cfg.numMelBins
      frameLength := cfg.frameLength
      frameStep := cfg.frameStep
      fftSize := cfg.fftSize
      topDb := cfg.topDb
      weightMatrix := cfg.weightMatrix
      inputScale := inputScale
      outputScale := outputScale
      outputZeroPoint := outputZeroPoint
      data := memsetZero P ((List.range (cfg.width * cfg.numMelBins)).map freshData)
        (cfg.width * cfg.numMelBins)
      audioBuffer := memsetZero P ((List.range cfg.frameLength).map freshAudio)
        (4 * cfg.frameStep)
      audioBufferIndex := 0
      window := (List.range cfg.frameLength).map (windowCoeff P cfg.frameLength) }

/-- Method `clear`. -/
def clear (P : Platform F) (st : Engine F) : Engine F :=
  { st with
    data := memsetZero P st.data (st.width * st.numMelBins)
    audioBufferIndex := 0 }

/-- Number of columns by which `write` shifts the spectrogram:
`(count + _audioBufferIndex - (_frameLength - _frameStep)) / _frameStep`,
with the division of C (truncation toward zero). -/
def shiftColumns (frameLength frameStep count audioBufferIndex : Int) : Int :=
  Int.tdiv (count + audioBufferIndex - (frameLength - frameStep)) frameStep

/-- Value that `write` assigns to `_audioBufferIndex`:
`(count + _audioBufferIndex) - (shiftColumns * _frameStep)`. -/
def nextAudioBufferIndex (frameLength frameStep count audioBufferIndex : Int) : Int :=
  (count + audioBufferIndex) -
    shiftColumns frameLength frameStep count audioBufferIndex * frameStep

/-- Conversion of one 16-bit sample: `(*in16++ / float(1 << 15)) * _inputScale`. -/
def toFloat (inputScale : F) (sample : Int) : F :=
  ((sample : F) / 32768) * inputScale

/-- Valid part of the local array `fSamples`: the carried samples followed by
the converted new samples. -/
def workingSamples (st : Engine F) (samples : List Int) : List F :=
  st.audioBuffer.take st.audioBufferIndex.toNat ++ samples.map (toFloat st.inputScale)

/-- Result of `arm_mult_f32(_window, fIn, windowedInput, _fftSize)` for frame `i`,
where `fIn = fSamples + i * _frameStep`. -/
def windowedInput (P : Platform F) (st : Engine F) (fSamples : List F) (i : Nat) : List F :=
  (List.range st.fftSize).map fun j =>
    peek P Region.window st.window j * peek P Region.samples fSamples (i * st.frameStep + j)

/-- Array `fftMag` of one frame: complex magnitudes of the packed spectrum,
then `fftMag[0] = fabs(fft[0])` and `fftMag[_fftSize / 2] = fabs(fft[1])`. -/
def fftMag (P : Platform F) (st : Engine F) (windowed : List F) : List F :=
  (List.range (fftMagSize st)).map fun b =>
    if b = st.fftSize / 2 then |peek P Region.spectrum (P.rfft windowed) 1|
    else if b = 0 then |peek P Region.spectrum (P.rfft windowed) 0|
    else P.sqrt (peek P Region.spectrum (P.rfft windowed) (2 * b) *
                   peek P Region.spectrum (P.rfft windowed) (2 * b)
                 + peek P Region.spectrum (P.rfft windowed) (2 * b + 1) *
                   peek P Region.spectrum (P.rfft windowed) (2 * b + 1))

/-- Dot product of the magnitudes with row `j` of the weight matrix. -/
def melDot (P : Platform F) (st : Engine F) (mag : List F) (j : Nat) : F :=
  (List.range (fftMagSize st)).foldl
    (fun mel k =>
      mel + peek P Region.weights st.weightMatrix (j * fftMagSize st + k) *
        peek P Region.spectrum mag k)
    0

/-- Value stored for one mel bin: the power is capped below at `1e-6`, then
`10.0 * logf(melPower) / logf(10.0)`. -/
def melValue (P : Platform F) (mel : F) : F :=
  10 * P.logf (if mel * mel < 1 / 1000000 then 1 / 1000000 else mel * mel) / P.logf 10

/-- The `_numMelBins` values computed for frame `i`. -/
def melRow (P : Platform F) (st : Engine F) (fSamples : List F) (i : Nat) : List F :=
  (List.range st.numMelBins).map fun j =>
    melValue P (melDot P st (fftMag P st (windowedInput P st fSamples i)) j)

/-- Column loop of `write`: `n` iterations from frame `i` on; frame `i` is
stored in the `M` cells from `out + i * M` on. -/
def columnLoop (rowOf : Nat → List F) (M out : Nat) : Nat → Nat → List F → Option (List F)
  | 0, _, data => some data
  | n + 1, i, data => (store data (out + i * M) (rowOf i)).bind (columnLoop rowOf M out n (i + 1))

/-- Method `write`.  The carried samples and the converted new samples form
the working sequence; the spectrogram is shifted by `shiftColumns` rows; one
row is computed and stored per frame; the samples that were not consumed are
copied to the front of the carry buffer.  The call has no defined result when
`_frameStep` is zero (division by zero), when the carry count is negative or
exceeds the carry buffer, when the frame count is negative or exceeds `W` (the
`memmove` leaves the spectrogram buffer), or when the new carry count is
negative or exceeds the carry buffer. -/
def write (P : Platform F) (st : Engine F) (samples : List Int) : Option (Engine F) :=
  if st.frameStep = 0 then none
  else if st.audioBufferIndex < 0 ∨ (st.audioBuffer.length : Int) < st.audioBufferIndex then none
  else
    let k := shiftColumns st.frameLength st.frameStep samples.length st.audioBufferIndex
    let idx := nextAudioBufferIndex st.frameLength st.frameStep samples.length st.audioBufferIndex
    if k < 0 ∨ (st.width : Int) < k then none
    else if idx < 0 then none
    else
      (memmoveDown st.data (k.toNat * st.numMelBins)
          ((st.width - k.toNat) * st.numMelBins)).bind fun moved =>
      (columnLoop (melRow P st (workingSamples st samples)) st.numMelBins
          ((st.width - k.toNat) * st.numMelBins) k.toNat 0 moved).bind fun data2 =>
      (store st.audioBuffer 0
          (((workingSamples st samples).drop (k.toNat * st.frameStep)).take idx.toNat)).map
        fun audio2 =>
          { st with data := data2, audioBuffer := audio2, audioBufferIndex := idx }

/-- Maximum of a block as `arm_max_f32` finds it; an empty block has none. -/
def arm_max_f32 : List F → Option F
  | [] => none
  | x :: xs => some (xs.foldl (fun out y => if out < y then y else out) x)

/-- Conversion of a float to `int32_t`: the fraction is discarded. -/
def toInt32 (x : F) : Int :=
  if 0 ≤ x then ⌊x⌋ else ⌈x⌉

/-- Intrinsic `__SSAT(x, 8)`: saturation to the signed 8-bit range. -/
def ssat8 (x : Int) : Int :=
  if x < -128 then -128 else if 127 < x then 127 else x

/-- Value-to-int8 mapping of `read`:
`__SSAT((out / _outputScale) + _outputZeroPoint, 8)`, with exact division and
addition (`quantizeWith` takes the operations as parameters). -/
def quantize (outputScale : F) (outputZeroPoint : Int) (out : F) : Int :=
  ssat8 (toInt32 (out / outputScale + (outputZeroPoint : F)))

/-- Clip from below: `if (out < minOut) out = minOut`. -/
def clipBelow (minOut out : F) : F :=
  if out < minOut then minOut else out

/-- Method `read`: the `count` bytes stored into the destination buffer. -/
def read (P : Platform F) (st : Engine F) (count : Nat) : Option (List Int) :=
  match arm_max_f32 (st.data.take (st.width * st.numMelBins)) with
  | none => none
  | some maxDb =>
    some ((List.range count).map fun i =>
      quantize st.outputScale st.outputZeroPoint
        (clipBelow (maxDb - (st.topDb : F)) (peek P Region.data st.data i)))

/-- Quantization as the specification words it:
`clamp(round(v / outputScale) + outputZeroPoint, -128, 127)`. -/
def quantizeAsSpecified (outputScale : F) (outputZeroPoint : Int) (v : F) : Int :=
  max (-128) (min 127 (round (v / outputScale) + outputZeroPoint))

/-- Carry count after a series of writes with the given sample counts. -/
def carryAfter (frameLength frameStep : Int) (start : Int) (counts : List Int) : Int :=
  counts.foldl (fun c count => nextAudioBufferIndex frameLength frameStep count c) start

/-- State in which `write` may be called: the buffers have their allocated
sizes, `0 < S ≤ L`, and the carry count satisfies `0 ≤ carry < L`. -/
def Ready (st : Engine F) : Prop :=
  WellFormed st ∧ 0 < st.frameStep ∧ st.frameStep ≤ st.frameLength ∧
    0 ≤ st.audioBufferIndex ∧ st.audioBufferIndex < (st.frameLength : Int)

/-- Series of calls of `write`, one per chunk of samples; the result is the
last state together with the total number of columns shifted. -/
def writeAll (P : Platform F) : Engine F → List (List Int) → Option (Engine F × Nat)
  | st, [] => some (st, 0)
  | st, samples :: rest =>
    (write P st samples).bind fun st2 =>
      (writeAll P st2 rest).map fun r =>
        (r.1, (shiftColumns st.frameLength st.frameStep samples.length
          st.audioBufferIndex).toNat + r.2)

/-- Constructor arguments with `W = 1`, `M = 1`, `L = 4`, `S = 2`, `N = 4`. -/
def strideConfig : Config ℚ where
  width := 1
  numMelBins := 1
  frameLength := 4
  frameStep := 2
  fftSize := 4
  topDb := 80
  weightMatrix := [1, 1, 1]

/-- Engine that `begin` returns for `strideConfig` on the sample platform. -/
def strideEngine : Engine ℚ where
  width := 1
  numMelBins := 1
  frameLength := 4
  frameStep := 2
  fftSize := 4
  topDb := 80
  weightMatrix := [1, 1, 1]
  inputScale := 1
  outputScale := 1
  outputZeroPoint := 0
  data := [0]
  audioBuffer := [0, 0, 0, 0]
  audioBufferIndex := 0
  window := [0, 0, 0, 0]

/-- Platform over the rationals used to evaluate the definitions. -/
def samplePlatform : Platform ℚ where
  rfft := fun xs => xs
  sqrt := fun x => x
  logf := fun x => x
  cos := fun _ => 1
  pi := 3
  rfftInitOk := fun _ => true
  zeroLowBytes := fun _ x => x
  stray := fun _ _ => 0

/-- Engine over the rationals with `W = 2`, `M = 1`, `L = 2`, `S = 1`, `N = 2`
and an empty carry, used to evaluate the definitions. -/
def sampleEngine : Engine ℚ where
  width := 2
  numMelBins := 1
  frameLength := 2
  frameStep := 1
  fftSize := 2
  topDb := 80
  weightMatrix := [1, 1]
  inputScale := 1
  outputScale := 1
  outputZeroPoint := 0
  data := [5, 7]
  audioBuffer := [0, 0]
  audioBufferIndex := 0
  window := [0, 1]

/-- Engine with the geometry of the example scenario (`L = 480`, `S = 160`,
`W = 20`, `M = 10`, `N = 512`, `D = 80`), all buffers zero and an empty carry. -/
def scenarioEngine : Engine ℚ where
  width := 20
  numMelBins := 10
  frameLength := 480
  frameStep := 160
  fftSize := 512
  topDb := 80
  weightMatrix := []
  inputScale := 1
  outputScale := 1
  outputZeroPoint := 0
  data := List.replicate 200 0
  audioBuffer := List.replicate 480 0
  audioBufferIndex := 0
  window := List.replicate 480 0

/-- Engine with a single spectrogram cell holding `3/4`, output scale `1` and
zero-point `0`. -/
def quantEngine : Engine ℚ where
  width := 1
  numMelBins := 1
  frameLength := 2
  frameStep := 1
  fftSize := 2
  topDb := 80
  weightMatrix := [1, 1]
  inputScale := 1
  outputScale := 1
  outputZeroPoint := 0
  data := [3 / 4]
  audioBuffer := [0, 0]
  audioBufferIndex := 0
  window := [0, 1]

/-- Engine with `W = 2`, `M = 2` whose four spectrogram cells hold `1` and
whose carry count is `1`. -/
def resetEngine : Engine ℚ where
  width := 2
  numMelBins := 2
  frameLength := 2
  frameStep := 1
  fftSize := 2
  topDb := 80
  weightMatrix := [1, 1, 1, 1]
  inputScale := 1
  outputScale := 1
  outputZeroPoint := 0
  data := [1, 1, 1, 1]
  audioBuffer := [0, 0]
  audioBufferIndex := 1
  window := [0, 1]

/-- State of an object of the class at any time of its life: each of the three
owned buffers is absent (`nullptr`) or present with its content; the weight
matrix is borrowed from the caller. -/
structure Object (F : Type) where
  width : Nat
  numMelBins : Nat
  frameLength : Nat
  frameStep : Nat
  fftSize : Nat
  topDb : Int
  weightMatrix : List F
  inputScale : F
  outputScale : F
  outputZeroPoint : Int
  data : Option (List F)
  audioBuffer : Option (List F)
  audioBufferIndex : Int
  window : Option (List F)

/-- Release of `_window` in `end`: `if (_window != nullptr) { delete [] _window; _window = nullptr; }`. -/
def releaseWindow (o : Object F) : Object F :=
  if o.window.isSome then { o with window := none } else o

/-- Release of `_audioBuffer` in `end`. -/
def releaseAudioBuffer (o : Object F) : Object F :=
  if o.audioBuffer.isSome then { o with audioBuffer := none } else o

/-- Release of `_data` in `end`. -/
def releaseData (o : Object F) : Object F :=
  if o.data.isSome then { o with data := none } else o

/-- Method `end`: the three buffers are released in the order window, audio
buffer, spectrogram. -/
def end_ (o : Object F) : Object F :=
  releaseData (releaseAudioBuffer (releaseWindow o))

/-- Indices of `_window` that `arm_mult_f32(_window, fIn, windowedInput, _fftSize)`
reads. -/
def windowReads (st : Engine F) : List Nat :=
  List.range st.fftSize

/-- Indices of `fSamples` that the same call reads for frame `i`, where
`fIn = fSamples + i * _frameStep`. -/
def sampleReads (st : Engine F) (i : Nat) : List Nat :=
  (List.range st.fftSize).map fun j => i * st.frameStep + j

/-- Constructor arguments with `W = 2`, `M = 2`, `L = 2`, `S = 1`, `N = 32`. -/
def quarterConfig : Config ℚ where
  width := 2
  numMelBins := 2
  frameLength := 2
  frameStep := 1
  fftSize := 32
  topDb := 80
  weightMatrix := [1, 1, 1, 1]

/-- Engine with `W = 2`, `M = 1`, `L = 3`, `S = 2`, `N = 2` in the steady state:
the carry count is `L - S = 1` and the carried sample is zero. -/
def steadyEngine : Engine ℚ where
  width := 2
  numMelBins := 1
  frameLength := 3
  frameStep := 2
  fftSize := 2
  topDb := 80
  weightMatrix := [1, 1]
  inputScale := 1
  outputScale := 1
  outputZeroPoint := 0
  data := [5, 7]
  audioBuffer := [0, 9, 9]
  audioBufferIndex := 1
  window := [0, 1, 0]

/-- Engine over the reals with `W = 2`, `M = 2`, `L = 3`, `S = 2`, `N = 2` in
the steady state, used with the exact logarithm. -/
def silentEngine : Engine ℝ where
  width := 2
  numMelBins := 2
  frameLength := 3
  frameStep := 2
  fftSize := 2
  topDb := 80
  weightMatrix := [1, 1, 1, 1]
  inputScale := 1
  outputScale := 1
  outputZeroPoint := 0
  data := [5, 7, 5, 7]
  audioBuffer := [0, 9, 9]
  audioBufferIndex := 1
  window := [0, 1, 0]

/-- Engine with the geometry of the example scenario (`L = 480`, `S = 160`,
`W = 20`, `M = 10`, `D = 80`) and `N = 480`, in the steady state: the carry
count is `L - S = 320` and the carried samples are zero. -/
def steadyScenarioEngine : Engine ℚ where
  width := 20
  numMelBins := 10
  frameLength := 480
  frameStep := 160
  fftSize := 480
  topDb := 80
  weightMatrix := []
  inputScale := 1
  outputScale := 1
  outputZeroPoint := 0
  data := List.replicate 200 0
  audioBuffer := List.replicate 480 0
  audioBufferIndex := 320
  window := List.replicate 480 0

/-- Engine over the reals with the geometry of the example scenario (`L = 480`,
`S = 160`, `W = 20`, `M = 10`, `D = 80`), `N = 480`, output scale `1` and
zero-point `0`, in the steady state with an all-zero spectrogram. -/
def steadyScenarioReal : Engine ℝ where
  width := 20
  numMelBins := 10
  frameLength := 480
  frameStep := 160
  fftSize := 480
  topDb := 80
  weightMatrix := []
  inputScale := 1
  outputScale := 1
  outputZeroPoint := 0
  data := List.replicate 200 0
  audioBuffer := List.replicate 480 0
  audioBufferIndex := 320
  window := List.replicate 480 0

/-- Float operations that `read` performs on binary32 values: the subtraction
`maxDb - _topDb`, the division `out / _outputScale`, the addition of
`_outputZeroPoint`, and the conversion of an `int` to a float.  Each yields
the binary32 result of the operation, which may differ from the exact one. -/
structure FloatOps (F : Type) where
  sub : F → F → F
  div : F → F → F
  add : F → F → F
  ofInt : Int → F

/-- Operations without rounding. -/
def exactOps : FloatOps F where
  sub := fun a b => a - b
  div := fun a b => a / b
  add := fun a b => a + b
  ofInt := fun z => (z : F)

/-- Value-to-int8 mapping of `read`,
`__SSAT((out / _outputScale) + _outputZeroPoint, 8)`, with the division and the
addition performed by `ops`. -/
def quantizeWith (ops : FloatOps F) (outputScale : F) (outputZeroPoint : Int) (out : F) : Int :=
  ssat8 (toInt32 (ops.add (ops.div out outputScale) (ops.ofInt outputZeroPoint)))

/-- Method `read` with its float operations performed by `ops`; with
`exactOps` it is `read`. -/
def readWith (ops : FloatOps F) (P : Platform F) (st : Engine F) (count : Nat) :
    Option (List Int) :=
  match arm_max_f32 (st.data.take (st.width * st.numMelBins)) with
  | none => none
  | some maxDb =>
    some ((List.range count).map fun i =>
      quantizeWith ops st.outputScale st.outputZeroPoint
        (clipBelow (ops.sub maxDb (ops.ofInt st.topDb)) (peek P Region.data st.data i)))

/-- Operations whose division is rounded to the nearest multiple of `2^-21`,
the spacing of the binary32 numbers between 4 and 8; the other operations are
exact. -/
def gridOps : FloatOps ℚ where
  sub := fun a b => a - b
  div := fun a b => ((round (a / b * 2097152) : Int) : ℚ) / 2097152
  add := fun a b => a + b
  ofInt := fun z => (z : ℚ)

/-- Engine with a single spectrogram cell holding the binary32 number nearest
to `0.7`, output scale the binary32 number nearest to `0.1`, zero-point `0`. -/
def tenthEngine : Engine ℚ where
  width := 1
  numMelBins := 1
  frameLength := 2
  frameStep := 1
  fftSize := 32
  topDb := 80
  weightMatrix := []
  inputScale := 1
  outputScale := 13421773 / 134217728
  outputZeroPoint := 0
  data := [11744051 / 16777216]
  audioBuffer := [0, 0]
  audioBufferIndex := 0
  window := [0, 1]

/-- Engine with `W = 1`, `M = 1`, `L = 32`, `S = 16`, `N = 32` and an empty
carry. -/
def blockEngine : Engine ℚ where
  width := 1
  numMelBins := 1
  frameLength := 32
  frameStep := 16
  fftSize := 32
  topDb := 80
  weightMatrix := List.replicate 17 1
  inputScale := 1
  outputScale := 1
  outputZeroPoint := 0
  data := [0]
  audioBuffer := List.replicate 32 0
  audioBufferIndex := 0
  window := List.replicate 32 0

/-- Engine over the reals with the geometry of `overreadEngine` (`L = 480`,
`S = 160`, `W = 20`, `M = 10`, `N = 512`), in the steady state: the carry count
is `320`, the carried samples are zero, every mel weight is `1`. -/
def overreadReal : Engine ℝ where
  width := 20
  numMelBins := 10
  frameLength := 480
  frameStep := 160
  fftSize := 512
  topDb := 80
  weightMatrix := List.replicate 2570 1
  inputScale := 1
  outputScale := 1
  outputZeroPoint := 0
  data := List.replicate 200 0
  audioBuffer := List.replicate 480 0
  audioBufferIndex := 320
  window := List.replicate 480 0

/-! ## Arithmetic of the frame count and of the carry count -/

theorem shiftColumns_of_nonneg (L S count c : Int) (hS : 0 < S)
    (h : L - S ≤ count + c) :
    shiftColumns L S count c = (count + c - (L - S)) / S := by
  unfold shiftColumns
  exact Int.tdiv_eq_ediv (by omega) hS.le

theorem shiftColumns_of_neg (L S count c : Int) (hS : 0 < S)
    (h : count + c < L - S) :
    shiftColumns L S count c = -(((L - S) - (count + c)) / S) := by
  unfold shiftColumns
  have e : count + c - (L - S) = -((L - S) - (count + c)) := by ring
  rw [e, Int.neg_tdiv, Int.tdiv_eq_ediv (by omega) hS.le]

theorem nextAudioBufferIndex_of_nonneg (L S count c : Int) (hS : 0 < S)
    (h : L - S ≤ count + c) :
    nextAudioBufferIndex L S count c = (L - S) + (count + c - (L - S)) % S := by
  unfold nextAudioBufferIndex
  rw [shiftColumns_of_nonneg L S count c hS h]
  have := Int.ediv_add_emod (count + c - (L - S)) S
  linarith

theorem nextAudioBufferIndex_of_neg (L S count c : Int) (hS : 0 < S)
    (h : count + c < L - S) :
    nextAudioBufferIndex L S count c = (L - S) - ((L - S) - (count + c)) % S := by
  unfold nextAudioBufferIndex
  rw [shiftColumns_of_neg L S count c hS h]
  have := Int.ediv_add_emod ((L - S) - (count + c)) S
  linarith

theorem nextAudioBufferIndex_bounds (L S count c : Int) (hS : 0 < S) (hSL : S ≤ L)
    (hc : 0 ≤ c) (hcount : 0 ≤ count) :
    0 ≤ nextAudioBufferIndex L S count c ∧ nextAudioBufferIndex L S count c < L := by
  by_cases h : L - S ≤ count + c
  · rw [nextAudioBufferIndex_of_nonneg L S count c hS h]
    have h1 := Int.emod_nonneg (count + c - (L - S)) hS.ne'
    have h2 := Int.emod_lt_of_pos (count + c - (L - S)) hS
    omega
  · have h' : count + c < L - S := by omega
    have h1 := Int.emod_nonneg ((L - S) - (count + c)) hS.ne'
    have h3 : 0 ≤ ((L - S) - (count + c)) / S :=
      Int.ediv_nonneg (by omega) hS.le
    have h4 := Int.ediv_add_emod ((L - S) - (count + c)) S
    have h5 : 0 ≤ S * (((L - S) - (count + c)) / S) := mul_nonneg hS.le h3
    rw [nextAudioBufferIndex_of_neg L S count c hS h']
    omega

/-! ## Effect of the memory operations -/

theorem length_melRow (P : Platform F) (st : Engine F) (fSamples : List F) (i : Nat) :
    (melRow P st fSamples i).length = st.numMelBins := by
  simp [melRow]

theorem length_flatten_rows (rowOf : Nat → List F) (M : Nat)
    (hrow : ∀ i, (rowOf i).length = M) (l : List Nat) :
    ((l.map rowOf).flatten).length = l.length * M := by
  induction l with
  | nil => simp
  | cons a l ih =>
    simp only [List.map_cons, List.flatten_cons, List.length_append, ih, hrow, List.length_cons]
    ring

theorem columnLoop_eq (rowOf : Nat → List F) (M out : Nat)
    (hrow : ∀ i, (rowOf i).length = M) :
    ∀ (n i : Nat) (data : List F), out + (i + n) * M ≤ data.length →
      columnLoop rowOf M out n i data =
        some (data.take (out + i * M) ++ ((List.range' i n).map rowOf).flatten ++
          data.drop (out + (i + n) * M)) := by
  intro n
  induction n with
  | zero =>
    intro i data _
    simp [columnLoop]
  | succ n ih =>
    intro i data hlen
    have hM : out + i * M + M ≤ data.length := by
      have : out + (i + (n + 1)) * M = out + i * M + M + n * M := by ring
      omega
    have hstore : store data (out + i * M) (rowOf i) =
        some (data.take (out + i * M) ++ rowOf i ++ data.drop (out + i * M + M)) := by
      simp [store, hrow, hM]
    have hlenA : (data.take (out + i * M) ++ rowOf i).length = out + (i + 1) * M := by
      simp only [List.length_append, List.length_take, hrow]
      have : out + (i + 1) * M = out + i * M + M := by ring
      omega
    have hlen1 : out + (i + 1 + n) * M ≤
        (data.take (out + i * M) ++ rowOf i ++ data.drop (out + i * M + M)).length := by
      simp only [List.length_append, List.length_take, List.length_drop, hrow]
      have : out + (i + 1 + n) * M = out + (i + (n + 1)) * M := by ring
      omega
    simp only [columnLoop, hstore, Option.some_bind]
    rw [ih (i + 1) _ hlen1, List.range'_succ, List.map_cons, List.flatten_cons]
    congr 1
    have e1 : List.take (out + (i + 1) * M)
        (data.take (out + i * M) ++ rowOf i ++ data.drop (out + i * M + M)) =
        data.take (out + i * M) ++ rowOf i := List.take_left' hlenA
    have e2 : List.drop (out + (i + 1 + n) * M)
        (data.take (out + i * M) ++ rowOf i ++ data.drop (out + i * M + M)) =
        data.drop (out + (i + (n + 1)) * M) := by
      have split : out + (i + 1 + n) * M = out + (i + 1) * M + n * M := by ring
      rw [split, ← List.drop_drop, List.drop_left' hlenA, List.drop_drop]
      congr 1
      ring
    rw [e1, e2]
    simp [List.append_assoc]

theorem length_workingSamples (st : Engine F) (samples : List Int)
    (hc0 : 0 ≤ st.audioBufferIndex)
    (hcL : st.audioBufferIndex ≤ (st.audioBuffer.length : Int)) :
    ((workingSamples st samples).length : Int) = samples.length + st.audioBufferIndex := by
  simp only [workingSamples, List.length_append, List.length_take, List.length_map]
  omega

/-- Closed form of `write` when every store stays inside the buffers: the
surviving cells are moved to the front, the new rows follow them, and the
samples that were not consumed are copied to the front of the carry buffer. -/
theorem write_eq_some (P : Platform F) (st : Engine F) (samples : List Int)
    (hwf : WellFormed st) (hS : 0 < st.frameStep)
    (hc0 : 0 ≤ st.audioBufferIndex)
    (hcL : st.audioBufferIndex ≤ (st.frameLength : Int))
    (hk0 : 0 ≤ shiftColumns st.frameLength st.frameStep samples.length st.audioBufferIndex)
    (hkW : shiftColumns st.frameLength st.frameStep samples.length st.audioBufferIndex
      ≤ (st.width : Int))
    (hi0 : 0 ≤ nextAudioBufferIndex st.frameLength st.frameStep samples.length
      st.audioBufferIndex)
    (hiL : nextAudioBufferIndex st.frameLength st.frameStep samples.length
      st.audioBufferIndex ≤ (st.frameLength : Int)) :
    write P st samples = some
      { st with
        data :=
          st.data.drop ((shiftColumns st.frameLength st.frameStep samples.length
              st.audioBufferIndex).toNat * st.numMelBins) ++
            ((List.range (shiftColumns st.frameLength st.frameStep samples.length
              st.audioBufferIndex).toNat).map
                (melRow P st (workingSamples st samples))).flatten
        audioBuffer :=
          (workingSamples st samples).drop
              ((shiftColumns st.frameLength st.frameStep samples.length
                st.audioBufferIndex).toNat * st.frameStep) ++
            st.audioBuffer.drop
              (nextAudioBufferIndex st.frameLength st.frameStep samples.length
                st.audioBufferIndex).toNat
        audioBufferIndex :=
          nextAudioBufferIndex st.frameLength st.frameStep samples.length
            st.audioBufferIndex } := by
  obtain ⟨hd, ha, -⟩ := hwf
  have hidx : nextAudioBufferIndex st.frameLength st.frameStep samples.length
      st.audioBufferIndex = (samples.length + st.audioBufferIndex) -
        shiftColumns st.frameLength st.frameStep samples.length st.audioBufferIndex *
          st.frameStep := rfl
  generalize hkdef : shiftColumns st.frameLength st.frameStep samples.length
    st.audioBufferIndex = k at *
  generalize hidef : nextAudioBufferIndex st.frameLength st.frameStep samples.length
    st.audioBufferIndex = idx at *
  obtain ⟨kn, rfl⟩ := Int.eq_ofNat_of_zero_le hk0
  obtain ⟨jn, rfl⟩ := Int.eq_ofNat_of_zero_le hi0
  have hkn : kn ≤ st.width := by exact_mod_cast hkW
  have hjn : jn ≤ st.frameLength := by exact_mod_cast hiL
  have hws := length_workingSamples st samples hc0 (by rw [ha]; exact hcL)
  have hwsn : (workingSamples st samples).length = kn * st.frameStep + jn := by
    have : ((workingSamples st samples).length : Int) = ((kn * st.frameStep + jn : Nat) : Int) := by
      push_cast
      rw [hws]
      linarith
    exact_mod_cast this
  have hsplit : kn * st.numMelBins + (st.width - kn) * st.numMelBins =
      st.width * st.numMelBins := by
    rw [← Nat.add_mul]
    congr 1
    omega
  have hmove : memmoveDown st.data (kn * st.numMelBins) ((st.width - kn) * st.numMelBins) =
      some (st.data.drop (kn * st.numMelBins) ++
        st.data.drop ((st.width - kn) * st.numMelBins)) := by
    have hle : kn * st.numMelBins + (st.width - kn) * st.numMelBins ≤ st.data.length := by
      omega
    have htake : List.take ((st.width - kn) * st.numMelBins)
        (st.data.drop (kn * st.numMelBins)) = st.data.drop (kn * st.numMelBins) := by
      apply List.take_of_length_le
      simp only [List.length_drop]
      omega
    simp only [memmoveDown, hle, if_true, htake]
  have hlenA : (st.data.drop (kn * st.numMelBins)).length = (st.width - kn) * st.numMelBins := by
    simp only [List.length_drop]
    omega
  have hloop : columnLoop (melRow P st (workingSamples st samples)) st.numMelBins
      ((st.width - kn) * st.numMelBins) kn 0
      (st.data.drop (kn * st.numMelBins) ++ st.data.drop ((st.width - kn) * st.numMelBins)) =
      some (st.data.drop (kn * st.numMelBins) ++
        ((List.range kn).map (melRow P st (workingSamples st samples))).flatten) := by
    have hlen : (st.width - kn) * st.numMelBins + (0 + kn) * st.numMelBins ≤
        (st.data.drop (kn * st.numMelBins) ++
          st.data.drop ((st.width - kn) * st.numMelBins)).length := by
      simp only [List.length_append, List.length_drop, Nat.zero_add]
      omega
    rw [columnLoop_eq _ _ _ (length_melRow P st _) kn 0 _ hlen]
    have e1 : List.take ((st.width - kn) * st.numMelBins + 0 * st.numMelBins)
        (st.data.drop (kn * st.numMelBins) ++
          st.data.drop ((st.width - kn) * st.numMelBins)) =
        st.data.drop (kn * st.numMelBins) := by
      apply List.take_left'
      simp only [Nat.zero_mul, Nat.add_zero]
      omega
    have e2 : List.drop ((st.width - kn) * st.numMelBins + (0 + kn) * st.numMelBins)
        (st.data.drop (kn * st.numMelBins) ++
          st.data.drop ((st.width - kn) * st.numMelBins)) = [] := by
      apply List.drop_of_length_le
      simp only [List.length_append, List.length_drop, Nat.zero_add]
      omega
    rw [e1, e2, List.range_eq_range']
    simp
  have hcarry : List.take jn ((workingSamples st samples).drop (kn * st.frameStep)) =
      (workingSamples st samples).drop (kn * st.frameStep) := by
    apply List.take_of_length_le
    simp only [List.length_drop]
    omega
  have hstore : store st.audioBuffer 0 ((workingSamples st samples).drop (kn * st.frameStep)) =
      some ((workingSamples st samples).drop (kn * st.frameStep) ++ st.audioBuffer.drop jn) := by
    have hl : ((workingSamples st samples).drop (kn * st.frameStep)).length = jn := by
      simp only [List.length_drop]
      omega
    simp [store, hl, ha, hjn]
  have hSne : ¬ st.frameStep = 0 := by omega
  have hnot1 : ¬ (st.audioBufferIndex < 0 ∨ (st.audioBuffer.length : Int) < st.audioBufferIndex) := by
    rw [ha]
    omega
  have hnot2 : ¬ ((kn : Int) < 0 ∨ (st.width : Int) < (kn : Int)) := by omega
  have hnot3 : ¬ ((jn : Int) < 0) := by omega
  simp only [write, hSne, if_false, hnot1, hkdef, hidef, hnot2, hnot3, Int.toNat_ofNat,
    hmove, Option.some_bind, hloop, hcarry, hstore, Option.map_some']

/-- A negative frame count makes the `memmove` of `write` start before the
spectrogram buffer: the call has no defined result. -/
theorem write_eq_none_of_shift_neg (P : Platform F) (st : Engine F) (samples : List Int)
    (h : shiftColumns st.frameLength st.frameStep samples.length st.audioBufferIndex < 0) :
    write P st samples = none := by
  simp only [write]
  split_ifs <;> first | rfl | (exfalso; omega)

/-- A frame count above `W` gives the `memmove` of `write` a negative length:
the call has no defined result. -/
theorem write_eq_none_of_shift_gt (P : Platform F) (st : Engine F) (samples : List Int)
    (h : (st.width : Int) <
      shiftColumns st.frameLength st.frameStep samples.length st.audioBufferIndex) :
    write P st samples = none := by
  simp only [write]
  split_ifs <;> first | rfl | (exfalso; omega)

/-- A frame count of zero (which the truncating division gives whenever
`-S < count + c - (L - S) < S`) leaves the spectrogram as it was and adds the
new samples to the carry. -/
theorem write_of_shift_zero (P : Platform F) (st : Engine F) (samples : List Int)
    (hr : Ready st)
    (hk : shiftColumns st.frameLength st.frameStep samples.length st.audioBufferIndex = 0) :
    ∃ st2 : Engine F, write P st samples = some st2 ∧ st2.data = st.data ∧
      st2.audioBufferIndex = samples.length + st.audioBufferIndex := by
  obtain ⟨hwf, hS, hSL, hc0, hcL⟩ := hr
  have hSi : (0 : Int) < (st.frameStep : Int) := by exact_mod_cast hS
  have hSLi : (st.frameStep : Int) ≤ (st.frameLength : Int) := by exact_mod_cast hSL
  have hb := nextAudioBufferIndex_bounds st.frameLength st.frameStep samples.length
    st.audioBufferIndex hSi hSLi hc0 (by omega)
  have hw := write_eq_some P st samples hwf hS hc0 hcL.le (by rw [hk]) (by rw [hk]; omega)
    hb.1 hb.2.le
  refine ⟨_, hw, ?_, ?_⟩
  · simp [hk]
  · simp [nextAudioBufferIndex, hk]

/-! ## Frame count and carry count of one write -/

/-- C1, counterexample.  With `W = 1`, `L = 32`, `S = 16`, an empty carry and
`count = 48`, the conditions `0 < S ≤ L`, `0 ≤ c < L` and `count + c ≥ L - S`
hold and `floor((count + c - (L - S)) / S) = 2`, but the write produces no row:
two columns do not fit in `W = 1` and the call has no defined result. -/
theorem write_frame_count_beyond_width :
    0 < blockEngine.frameStep ∧ blockEngine.frameStep ≤ blockEngine.frameLength ∧
    0 ≤ blockEngine.audioBufferIndex ∧
    blockEngine.audioBufferIndex < (blockEngine.frameLength : Int) ∧
    (blockEngine.frameLength : Int) - blockEngine.frameStep ≤
      (48 : Int) + blockEngine.audioBufferIndex ∧
    Int.fdiv ((48 : Int) + blockEngine.audioBufferIndex -
      ((blockEngine.frameLength : Int) - blockEngine.frameStep)) blockEngine.frameStep = 2 ∧
    write samplePlatform blockEngine (List.replicate 48 0) = none := by
  refine ⟨by decide, by decide, by decide, by decide, by decide, by decide, ?_⟩
  apply write_eq_none_of_shift_gt
  rw [List.length_replicate]
  decide

/-- C1 as amended (frame-count conservation).  For `0 < S ≤ L`, a carry
`0 ≤ c < L` and `count + c ≥ L - S` such that
`k = floor((count + c - (L - S)) / S)` is at most `W`: the frame count that
`write` computes is `k`; the write returns a state whose spectrogram consists
of the surviving cells followed by exactly the `k` rows computed from the
frames `0 .. k - 1`, each of `M` cells; and the carry count of that state is
`(count + c) - k * S`. -/
theorem write_frame_count (P : Platform F) (st : Engine F) (samples : List Int)
    (hwf : WellFormed st)
    (hS : 0 < st.frameStep) (hSL : st.frameStep ≤ st.frameLength)
    (hc0 : 0 ≤ st.audioBufferIndex) (hcL : st.audioBufferIndex < (st.frameLength : Int))
    (hge : (st.frameLength : Int) - st.frameStep ≤ samples.length + st.audioBufferIndex)
    (hW : Int.fdiv (samples.length + st.audioBufferIndex - (st.frameLength - st.frameStep))
      st.frameStep ≤ (st.width : Int)) :
    shiftColumns st.frameLength st.frameStep samples.length st.audioBufferIndex =
        Int.fdiv (samples.length + st.audioBufferIndex - (st.frameLength - st.frameStep))
          st.frameStep ∧
    ∃ st2 : Engine F,
      write P st samples = some st2 ∧
      st2.data =
        st.data.drop
            ((Int.fdiv (samples.length + st.audioBufferIndex -
              (st.frameLength - st.frameStep)) st.frameStep).toNat * st.numMelBins) ++
          ((List.range (Int.fdiv (samples.length + st.audioBufferIndex -
              (st.frameLength - st.frameStep)) st.frameStep).toNat).map
            (melRow P st (workingSamples st samples))).flatten ∧
      (((List.range (Int.fdiv (samples.length + st.audioBufferIndex -
            (st.frameLength - st.frameStep)) st.frameStep).toNat).map
          (melRow P st (workingSamples st samples))).length : Int) =
        Int.fdiv (samples.length + st.audioBufferIndex - (st.frameLength - st.frameStep))
          st.frameStep ∧
      (∀ i : Nat, (melRow P st (workingSamples st samples) i).length = st.numMelBins) ∧
      st2.audioBufferIndex =
        (samples.length + st.audioBufferIndex) -
          Int.fdiv (samples.length + st.audioBufferIndex - (st.frameLength - st.frameStep))
            st.frameStep * st.frameStep := by
  have hSi : (0 : Int) < (st.frameStep : Int) := by exact_mod_cast hS
  have hSLi : (st.frameStep : Int) ≤ (st.frameLength : Int) := by exact_mod_cast hSL
  have hk := shiftColumns_of_nonneg st.frameLength st.frameStep samples.length
    st.audioBufferIndex hSi hge
  have hfd : Int.fdiv (samples.length + st.audioBufferIndex - (st.frameLength - st.frameStep))
      st.frameStep =
      (samples.length + st.audioBufferIndex - (st.frameLength - st.frameStep)) /
        (st.frameStep : Int) := Int.fdiv_eq_ediv _ hSi.le
  have hkfd : Int.fdiv (samples.length + st.audioBufferIndex -
      (st.frameLength - st.frameStep)) st.frameStep =
      shiftColumns st.frameLength st.frameStep samples.length st.audioBufferIndex := by
    rw [hfd, hk]
  have hk0 : 0 ≤ shiftColumns st.frameLength st.frameStep samples.length
      st.audioBufferIndex := by
    rw [hk]
    exact Int.ediv_nonneg (by omega) hSi.le
  have hb := nextAudioBufferIndex_bounds st.frameLength st.frameStep samples.length
    st.audioBufferIndex hSi hSLi hc0 (by omega)
  rw [hkfd] at hW ⊢
  have hw := write_eq_some P st samples hwf hS hc0 hcL.le hk0 hW hb.1 hb.2.le
  refine ⟨rfl, _, hw, rfl, ?_, ?_, rfl⟩
  · rw [List.length_map, List.length_range, Int.toNat_of_nonneg hk0]
  · intro i
    exact length_melRow P st _ i

/-- Evaluation of `write_frame_count` on `sampleEngine` with two new samples:
one column is produced and the carry count becomes `1`. -/
theorem write_frame_count_witness :
    WellFormed sampleEngine ∧
    0 < sampleEngine.frameStep ∧ sampleEngine.frameStep ≤ sampleEngine.frameLength ∧
    0 ≤ sampleEngine.audioBufferIndex ∧
    sampleEngine.audioBufferIndex < (sampleEngine.frameLength : Int) ∧
    (sampleEngine.frameLength : Int) - sampleEngine.frameStep ≤
      ([100, 200] : List Int).length + sampleEngine.audioBufferIndex ∧
    Int.fdiv (([100, 200] : List Int).length + sampleEngine.audioBufferIndex -
      (sampleEngine.frameLength - sampleEngine.frameStep)) sampleEngine.frameStep ≤
        (sampleEngine.width : Int) ∧
    shiftColumns sampleEngine.frameLength sampleEngine.frameStep
        ([100, 200] : List Int).length sampleEngine.audioBufferIndex = 1 ∧
    ∃ st2 : Engine ℚ,
      write samplePlatform sampleEngine [100, 200] = some st2 ∧
      st2.data.length = 2 ∧ st2.audioBufferIndex = 1 := by
  have h := write_frame_count samplePlatform sampleEngine [100, 200]
    ⟨rfl, rfl, rfl⟩ (by decide) (by decide) (by decide) (by decide) (by decide) (by decide)
  obtain ⟨st2, hw, hdata, -, -, hidx⟩ := h.2
  refine ⟨⟨rfl, rfl, rfl⟩, by decide, by decide, by decide, by decide, by decide, by decide,
    h.1.trans (by decide), st2, hw, ?_, hidx.trans (by decide)⟩
  have e : (Int.fdiv (([100, 200] : List Int).length + sampleEngine.audioBufferIndex -
      (sampleEngine.frameLength - sampleEngine.frameStep)) sampleEngine.frameStep).toNat = 1 := by
    decide
  rw [hdata, e, List.length_append,
    length_flatten_rows _ _ (length_melRow samplePlatform sampleEngine _)]
  rfl

/-- C2 (degenerate write), evaluation at the failing input.  With `L = 480`,
`S = 160`, an empty carry and `count = 160`, the frame count of `write` is `-1`
and the carry count it assigns is `320`, not `160`; the `memmove` of the call
starts one row before the spectrogram buffer, so the call has no defined
result. -/
theorem degenerate_write_diverges :
    shiftColumns 480 160 160 0 = -1 ∧
    nextAudioBufferIndex 480 160 160 0 = 320 ∧
    write samplePlatform scenarioEngine (List.replicate 160 0) = none := by
  refine ⟨by decide, by decide, ?_⟩
  apply write_eq_none_of_shift_neg
  simp only [scenarioEngine, List.length_replicate]
  decide

/-! ## Shift of the surviving rows -/

/-- C3 (shift-and-append eviction).  When the frame count `k` of a write
satisfies `0 ≤ k ≤ W`, the call returns a state whose spectrogram has `W * M`
cells and in which every surviving row is the old row `k` places further on:
for `r < W - k` and `m < M`, cell `r * M + m` holds the old cell
`(r + k) * M + m`.  The rows that survive are the first `W - k`, so only the
last `k` rows hold new values. -/
theorem write_shifts_rows (P : Platform F) (st : Engine F) (samples : List Int)
    (hwf : WellFormed st)
    (hS : 0 < st.frameStep) (hSL : st.frameStep ≤ st.frameLength)
    (hc0 : 0 ≤ st.audioBufferIndex) (hcL : st.audioBufferIndex < (st.frameLength : Int))
    (hk0 : 0 ≤ shiftColumns st.frameLength st.frameStep samples.length st.audioBufferIndex)
    (hkW : shiftColumns st.frameLength st.frameStep samples.length st.audioBufferIndex
      ≤ (st.width : Int)) :
    ∃ st2 : Engine F,
      write P st samples = some st2 ∧
      st2.data.length = st.width * st.numMelBins ∧
      ∀ r m : Nat,
        r + (shiftColumns st.frameLength st.frameStep samples.length
          st.audioBufferIndex).toNat < st.width →
        m < st.numMelBins →
        (r + (shiftColumns st.frameLength st.frameStep samples.length
            st.audioBufferIndex).toNat) * st.numMelBins + m < st.data.length ∧
        st2.data[r * st.numMelBins + m]? =
          st.data[(r + (shiftColumns st.frameLength st.frameStep samples.length
            st.audioBufferIndex).toNat) * st.numMelBins + m]? := by
  have hSi : (0 : Int) < (st.frameStep : Int) := by exact_mod_cast hS
  have hSLi : (st.frameStep : Int) ≤ (st.frameLength : Int) := by exact_mod_cast hSL
  have hb := nextAudioBufferIndex_bounds st.frameLength st.frameStep samples.length
    st.audioBufferIndex hSi hSLi hc0 (by omega)
  have hw := write_eq_some P st samples hwf hS hc0 hcL.le hk0 hkW hb.1 hb.2.le
  obtain ⟨hd, -, -⟩ := hwf
  generalize hkdef : (shiftColumns st.frameLength st.frameStep samples.length
    st.audioBufferIndex).toNat = kn at *
  have hkn : kn ≤ st.width := by
    have : ((kn : Nat) : Int) ≤ st.width := by
      rw [← hkdef, Int.toNat_of_nonneg hk0]
      exact hkW
    exact_mod_cast this
  have hsplit : kn * st.numMelBins + (st.width - kn) * st.numMelBins =
      st.width * st.numMelBins := by
    rw [← Nat.add_mul]
    congr 1
    omega
  refine ⟨_, hw, ?_, ?_⟩
  · simp only [List.length_append, List.length_drop, List.length_map, List.length_range,
      length_flatten_rows _ _ (length_melRow P st _)]
    omega
  · intro r m hr hm
    have h1 : (r + 1) * st.numMelBins ≤ (st.width - kn) * st.numMelBins :=
      Nat.mul_le_mul_right _ (by omega)
    have h2 : (r + 1) * st.numMelBins = r * st.numMelBins + st.numMelBins := by ring
    have h3 : (r + kn) * st.numMelBins = kn * st.numMelBins + r * st.numMelBins := by ring
    have hlt : r * st.numMelBins + m < (st.data.drop (kn * st.numMelBins)).length := by
      simp only [List.length_drop]
      omega
    refine ⟨by omega, ?_⟩
    show (st.data.drop (kn * st.numMelBins) ++ _)[r * st.numMelBins + m]? = _
    rw [List.getElem?_append_left hlt, List.getElem?_drop, h3, Nat.add_assoc]

/-- Evaluation of `write_shifts_rows` on `sampleEngine` with two new samples:
one column is produced and the old row 1 becomes row 0. -/
theorem write_shifts_rows_witness :
    WellFormed sampleEngine ∧
    0 < sampleEngine.frameStep ∧ sampleEngine.frameStep ≤ sampleEngine.frameLength ∧
    0 ≤ sampleEngine.audioBufferIndex ∧
    sampleEngine.audioBufferIndex < (sampleEngine.frameLength : Int) ∧
    0 ≤ shiftColumns sampleEngine.frameLength sampleEngine.frameStep
      ([100, 200] : List Int).length sampleEngine.audioBufferIndex ∧
    shiftColumns sampleEngine.frameLength sampleEngine.frameStep
      ([100, 200] : List Int).length sampleEngine.audioBufferIndex ≤ (sampleEngine.width : Int) ∧
    ∃ st2 : Engine ℚ,
      write samplePlatform sampleEngine [100, 200] = some st2 ∧ st2.data[0]? = some 7 := by
  obtain ⟨st2, hw, -, h⟩ := write_shifts_rows samplePlatform sampleEngine [100, 200]
    ⟨rfl, rfl, rfl⟩ (by decide) (by decide) (by decide) (by decide) (by decide) (by decide)
  refine ⟨⟨rfl, rfl, rfl⟩, by decide, by decide, by decide, by decide, by decide, by decide,
    st2, hw, ?_⟩
  have h0 := (h 0 0 (by decide) (by decide)).2
  have e : (0 + (shiftColumns sampleEngine.frameLength sampleEngine.frameStep
      ([100, 200] : List Int).length sampleEngine.audioBufferIndex).toNat) *
      sampleEngine.numMelBins + 0 = 1 := by decide
  rw [e] at h0
  simpa [sampleEngine] using h0

/-! ## Quantized read-out -/

theorem foldl_max_spec (xs : List F) :
    ∀ x : F,
      (xs.foldl (fun out y => if out < y then y else out) x = x ∨
        xs.foldl (fun out y => if out < y then y else out) x ∈ xs) ∧
      x ≤ xs.foldl (fun out y => if out < y then y else out) x ∧
      ∀ y ∈ xs, y ≤ xs.foldl (fun out y => if out < y then y else out) x := by
  induction xs with
  | nil =>
    intro x
    simp
  | cons a xs ih =>
    intro x
    simp only [List.foldl_cons, List.mem_cons]
    obtain ⟨h1, h2, h3⟩ := ih (if x < a then a else x)
    have hx : x ≤ (if x < a then a else x) := by
      split_ifs with h
      · exact h.le
      · exact le_rfl
    have ha : a ≤ (if x < a then a else x) := by
      split_ifs with h
      · exact le_rfl
      · exact not_lt.1 h
    refine ⟨?_, hx.trans h2, ?_⟩
    · rcases h1 with h1 | h1
      · rw [h1]
        split_ifs
        · exact Or.inr (Or.inl rfl)
        · exact Or.inl rfl
      · exact Or.inr (Or.inr h1)
    · intro y hy
      rcases hy with rfl | hy
      · exact ha.trans h2
      · exact h3 y hy

/-- The value found by `arm_max_f32` is a cell of the block and bounds every
cell of the block from above. -/
theorem arm_max_f32_spec (xs : List F) (hne : xs ≠ []) :
    ∃ maxDb : F, arm_max_f32 xs = some maxDb ∧ maxDb ∈ xs ∧ ∀ y ∈ xs, y ≤ maxDb := by
  cases xs with
  | nil => exact absurd rfl hne
  | cons x xs =>
    obtain ⟨h1, h2, h3⟩ := foldl_max_spec xs x
    refine ⟨_, rfl, ?_, ?_⟩
    · rcases h1 with h1 | h1
      · rw [h1]
        exact List.mem_cons_self _ _
      · exact List.mem_cons_of_mem _ h1
    · intro y hy
      rcases List.mem_cons.1 hy with rfl | hy
      · exact h2
      · exact h3 y hy

theorem ssat8_eq_clamp (x : Int) : ssat8 x = max (-128) (min 127 x) := by
  unfold ssat8
  split_ifs <;> omega

theorem clipBelow_eq_max (minOut out : F) : clipBelow minOut out = max out minOut := by
  unfold clipBelow
  split_ifs with h
  · exact (max_eq_right h.le).symm
  · exact (max_eq_left (not_lt.1 h)).symm

theorem peek_of_lt (P : Platform F) (reg : Region) (xs : List F) (j : Nat)
    (h : j < xs.length) : xs[j]? = some (peek P reg xs j) := by
  unfold peek
  rw [List.getElem?_eq_getElem h]

/-- Closed form of `read` on an engine with a non-empty spectrogram. -/
theorem read_eq_some (P : Platform F) (st : Engine F) (count : Nat)
    (hwf : WellFormed st) (hpos : 0 < st.width * st.numMelBins) :
    ∃ maxDb : F,
      maxDb ∈ st.data ∧ (∀ y ∈ st.data, y ≤ maxDb) ∧
      read P st count = some ((List.range count).map fun i =>
        quantize st.outputScale st.outputZeroPoint
          (clipBelow (maxDb - (st.topDb : F)) (peek P Region.data st.data i))) := by
  have htake : st.data.take (st.width * st.numMelBins) = st.data :=
    List.take_of_length_le hwf.1.le
  have hne : st.data ≠ [] := by
    intro h
    have := hwf.1
    rw [h, List.length_nil] at this
    omega
  obtain ⟨maxDb, hm, hmem, hub⟩ := arm_max_f32_spec st.data hne
  refine ⟨maxDb, hmem, hub, ?_⟩
  simp only [read, htake, hm]

/-- With operations that do not round, `readWith` is `read`. -/
theorem readWith_exactOps (P : Platform F) (st : Engine F) (count : Nat) :
    readWith exactOps P st count = read P st count := rfl

/-- Closed form of `readWith` on an engine with a non-empty spectrogram. -/
theorem readWith_eq_some (ops : FloatOps F) (P : Platform F) (st : Engine F) (count : Nat)
    (hwf : WellFormed st) (hpos : 0 < st.width * st.numMelBins) :
    ∃ maxDb : F,
      maxDb ∈ st.data ∧ (∀ y ∈ st.data, y ≤ maxDb) ∧
      readWith ops P st count = some ((List.range count).map fun i =>
        quantizeWith ops st.outputScale st.outputZeroPoint
          (clipBelow (ops.sub maxDb (ops.ofInt st.topDb)) (peek P Region.data st.data i))) := by
  have htake : st.data.take (st.width * st.numMelBins) = st.data :=
    List.take_of_length_le hwf.1.le
  have hne : st.data ≠ [] := by
    intro h
    have := hwf.1
    rw [h, List.length_nil] at this
    omega
  obtain ⟨maxDb, hm, hmem, hub⟩ := arm_max_f32_spec st.data hne
  refine ⟨maxDb, hmem, hub, ?_⟩
  simp only [readWith, htake, hm]

/-- Evaluation at the binary32 numbers nearest to `0.7` and `0.1`: the exact
quotient is `7 - 3/13421773` and truncates to `6`; rounded to the binary32
grid the quotient is `7`, and `readWith` stores `7`. -/
theorem readWith_rounded_quotient :
    read samplePlatform tenthEngine 1 = some [6] ∧
    readWith gridOps samplePlatform tenthEngine 1 = some [7] := by
  have hclip : clipBelow ((11744051 / 16777216 : ℚ) - ((80 : Int) : ℚ))
      (11744051 / 16777216) = 11744051 / 16777216 := by
    unfold clipBelow
    norm_num
  have hq6 : quantize (13421773 / 134217728 : ℚ) 0 (11744051 / 16777216) = 6 := by
    have hfl : ⌊(11744051 / 16777216 : ℚ) / (13421773 / 134217728) + ((0 : Int) : ℚ)⌋ = 6 := by
      rw [Int.floor_eq_iff]
      norm_num
    simp only [quantize, toInt32, ssat8, hfl]
    norm_num
  have hdiv : gridOps.div (11744051 / 16777216 : ℚ) (13421773 / 134217728) = 7 := by
    have hr : round ((11744051 / 16777216 : ℚ) / (13421773 / 134217728) * 2097152) =
        14680064 := by
      rw [round_eq, Int.floor_eq_iff]
      norm_num
    simp only [gridOps, hr]
    norm_num
  have hq7 : quantizeWith gridOps (13421773 / 134217728 : ℚ) 0 (11744051 / 16777216) = 7 := by
    have hfl : ⌊(7 : ℚ) + ((0 : Int) : ℚ)⌋ = 7 := by
      rw [Int.floor_eq_iff]
      norm_num
    have hadd : gridOps.add 7 (gridOps.ofInt 0) = (7 : ℚ) + ((0 : Int) : ℚ) := rfl
    simp only [quantizeWith, hdiv, hadd, toInt32, ssat8, hfl]
    norm_num
  have hrd : read samplePlatform tenthEngine 1 =
      some [quantize (13421773 / 134217728 : ℚ) 0
        (clipBelow ((11744051 / 16777216 : ℚ) - ((80 : Int) : ℚ)) (11744051 / 16777216))] := rfl
  have hrw : readWith gridOps samplePlatform tenthEngine 1 =
      some [quantizeWith gridOps (13421773 / 134217728 : ℚ) 0
        (clipBelow ((11744051 / 16777216 : ℚ) - ((80 : Int) : ℚ)) (11744051 / 16777216))] := rfl
  rw [hrd, hrw, hclip, hq6, hq7]
  exact ⟨rfl, rfl⟩

/-- C4, counterexample.  On a buffer holding the single value `3/4`, with
output scale `1`, zero-point `0` and `D = 80`, `read` stores `0`, with exact
operations and with the quotient rounded to the binary32 grid alike (every
operand and result here is a binary32 number), whereas
`clamp(round(v / outputScale) + outputZeroPoint, -128, 127)` is `1` for the
clipped value `v = 3/4`. -/
theorem read_not_rounding :
    read samplePlatform quantEngine 1 = some [0] ∧
    readWith gridOps samplePlatform quantEngine 1 = some [0] ∧
    clipBelow ((3 / 4 : ℚ) - ((80 : Int) : ℚ)) (3 / 4) = 3 / 4 ∧
    quantizeAsSpecified quantEngine.outputScale quantEngine.outputZeroPoint (3 / 4 : ℚ) = 1 := by
  have hclip : clipBelow ((3 / 4 : ℚ) - ((80 : Int) : ℚ)) (3 / 4) = 3 / 4 := by
    unfold clipBelow
    norm_num
  have hfl : ⌊(3 / 4 : ℚ)⌋ = 0 := by
    rw [Int.floor_eq_iff]
    norm_num
  refine ⟨?_, ?_, hclip, ?_⟩
  · have hq : quantize (1 : ℚ) 0 (3 / 4) = 0 := by
      simp only [quantize, toInt32, ssat8]
      norm_num [hfl]
    have hrd : read samplePlatform quantEngine 1 =
        some [quantize (1 : ℚ) 0 (clipBelow ((3 / 4 : ℚ) - ((80 : Int) : ℚ)) (3 / 4))] := rfl
    rw [hrd, hclip, hq]
  · have hdiv : gridOps.div (3 / 4 : ℚ) 1 = 3 / 4 := by
      have hr : round ((3 / 4 : ℚ) / 1 * 2097152) = 1572864 := by
        rw [round_eq, Int.floor_eq_iff]
        norm_num
      simp only [gridOps, hr]
      norm_num
    have hadd : gridOps.add (3 / 4 : ℚ) (gridOps.ofInt 0) = 3 / 4 := by
      simp only [gridOps]
      norm_num
    have hq : quantizeWith gridOps (1 : ℚ) 0 (3 / 4) = 0 := by
      simp only [quantizeWith, hdiv, hadd, toInt32, ssat8]
      norm_num [hfl]
    have hrd : readWith gridOps samplePlatform quantEngine 1 =
        some [quantizeWith gridOps (1 : ℚ) 0
          (clipBelow ((3 / 4 : ℚ) - ((80 : Int) : ℚ)) (3 / 4))] := rfl
    rw [hrd, hclip, hq]
  · have hr : round (3 / 4 : ℚ) = 1 := by
      rw [round_eq, Int.floor_eq_iff]
      norm_num
    simp only [quantizeAsSpecified, quantEngine]
    norm_num [hr]

/-- C4 as amended (quantization formula).  On an engine with a non-empty
spectrogram and `outputScale > 0`, `read` of `count ≤ W * M` elements returns
`count` values, and element `i` is
`clamp(trunc(fl(fl(v_i / outputScale) + outputZeroPoint)), -128, 127)`, where
`v_i` is cell `i` clipped from below at `fl(max - D)`, `max` is the largest
cell of the buffer, `fl` is the binary32 result of the operation (`ops`) and
`trunc` discards the fraction (conversion of a float to an integer).  The
statement holds for every behaviour of the float operations. -/
theorem read_quantization_formula (ops : FloatOps F) (P : Platform F) (st : Engine F)
    (count : Nat)
    (hwf : WellFormed st) (hpos : 0 < st.width * st.numMelBins)
    (_hs : 0 < st.outputScale) (hcount : count ≤ st.width * st.numMelBins) :
    ∃ (maxDb : F) (out : List Int),
      readWith ops P st count = some out ∧ out.length = count ∧
      maxDb ∈ st.data ∧ (∀ y ∈ st.data, y ≤ maxDb) ∧
      ∀ i : Nat, i < count →
        ∃ v : F, st.data[i]? = some v ∧
          out[i]? = some (max (-128) (min 127
            (toInt32 (ops.add
              (ops.div (max v (ops.sub maxDb (ops.ofInt st.topDb))) st.outputScale)
              (ops.ofInt st.outputZeroPoint))))) := by
  obtain ⟨maxDb, hmem, hub, hread⟩ := readWith_eq_some ops P st count hwf hpos
  refine ⟨maxDb, _, hread, by simp, hmem, hub, ?_⟩
  intro i hi
  have hlt : i < st.data.length := by
    rw [hwf.1]
    omega
  refine ⟨peek P Region.data st.data i, peek_of_lt P _ _ _ hlt, ?_⟩
  rw [List.getElem?_map, List.getElem?_range hi]
  simp only [Option.map_some', quantizeWith, ssat8_eq_clamp, clipBelow_eq_max]

/-- Evaluation of `read_quantization_formula` on `tenthEngine` with the
division rounded to the binary32 grid. -/
theorem read_quantization_formula_witness :
    WellFormed tenthEngine ∧ 0 < tenthEngine.width * tenthEngine.numMelBins ∧
    0 < tenthEngine.outputScale ∧ 1 ≤ tenthEngine.width * tenthEngine.numMelBins ∧
    ∃ (maxDb : ℚ) (out : List Int),
      readWith gridOps samplePlatform tenthEngine 1 = some out ∧ out.length = 1 ∧
      maxDb ∈ tenthEngine.data ∧ (∀ y ∈ tenthEngine.data, y ≤ maxDb) ∧
      ∀ i : Nat, i < 1 →
        ∃ v : ℚ, tenthEngine.data[i]? = some v ∧
          out[i]? = some (max (-128) (min 127
            (toInt32 (gridOps.add
              (gridOps.div (max v (gridOps.sub maxDb (gridOps.ofInt tenthEngine.topDb)))
                tenthEngine.outputScale)
              (gridOps.ofInt tenthEngine.outputZeroPoint))))) :=
  ⟨⟨rfl, rfl, rfl⟩, by decide, by norm_num [tenthEngine], by decide,
    read_quantization_formula gridOps samplePlatform tenthEngine 1 ⟨rfl, rfl, rfl⟩ (by decide)
      (by norm_num [tenthEngine]) (by decide)⟩

/-- C7 (reset), evaluation at the failing input.  With `W = 2` and `M = 2`,
`clear` sets `W * M = 4` bytes to zero, which is one float: on a buffer holding
`1` in each of the four cells it leaves `[0, 1, 1, 1]`.  The carry count is
reset to `0`, and the full read-out that follows is not uniform. -/
theorem clear_zeroes_quarter :
    (clear samplePlatform resetEngine).data = [0, 1, 1, 1] ∧
    (clear samplePlatform resetEngine).audioBufferIndex = 0 ∧
    read samplePlatform (clear samplePlatform resetEngine) 4 = some [0, 1, 1, 1] := by
  have hd : (clear samplePlatform resetEngine).data = [0, 1, 1, 1] := by
    simp [clear, resetEngine, memsetZero]
  refine ⟨hd, rfl, ?_⟩
  have hq0 : quantize (1 : ℚ) 0 (clipBelow ((1 : ℚ) - ((80 : Int) : ℚ)) 0) = 0 := by
    simp only [clipBelow, quantize, toInt32, ssat8]
    norm_num
  have hq1 : quantize (1 : ℚ) 0 (clipBelow ((1 : ℚ) - ((80 : Int) : ℚ)) 1) = 1 := by
    simp only [clipBelow, quantize, toInt32, ssat8]
    norm_num
  have hmax : arm_max_f32 ([0, 1, 1, 1] : List ℚ) = some 1 := by
    simp [arm_max_f32]
  have hrange : List.range 4 = [0, 1, 2, 3] := rfl
  simp only [read, hd, hrange, List.map_cons, List.map_nil]
  simp only [clear, resetEngine, List.take, hmax, peek, List.getElem?_cons_zero,
    List.getElem?_cons_succ, hq0, hq1]

/-! ## Order of the rows and series of writes -/

theorem getElem?_flatten_rows (rowOf : Nat → List F) (M : Nat)
    (hrow : ∀ i, (rowOf i).length = M) :
    ∀ (n s i m : Nat), i < n → m < M →
      ((List.range' s n).map rowOf).flatten[i * M + m]? = (rowOf (s + i))[m]? := by
  intro n
  induction n with
  | zero =>
    intro s i m hi
    omega
  | succ n ih =>
    intro s i m hi hm
    rw [List.range'_succ, List.map_cons, List.flatten_cons]
    cases i with
    | zero =>
      rw [Nat.zero_mul, Nat.zero_add, Nat.add_zero]
      exact List.getElem?_append_left (by rw [hrow]; exact hm)
    | succ i =>
      have hge : (rowOf s).length ≤ (i + 1) * M + m := by
        rw [hrow, Nat.add_mul, Nat.one_mul]
        omega
      have hsub : (i + 1) * M + m - (rowOf s).length = i * M + m := by
        rw [hrow, Nat.add_mul, Nat.one_mul]
        omega
      rw [List.getElem?_append_right hge, hsub, ih (s + 1) i m (by omega) hm]
      congr 2
      omega

/-- A call of `write` that returns a state was made with a frame count between
`0` and `W`. -/
theorem write_some_shift (P : Platform F) (st st2 : Engine F) (samples : List Int)
    (h : write P st samples = some st2) :
    0 ≤ shiftColumns st.frameLength st.frameStep samples.length st.audioBufferIndex ∧
    shiftColumns st.frameLength st.frameStep samples.length st.audioBufferIndex ≤
      (st.width : Int) := by
  simp only [write] at h
  split_ifs at h with h1 h2 h3 h4
  exact ⟨by omega, by omega⟩

/-- One write from a ready state: the geometry is unchanged, the new state is
ready, the carry count is the value of `nextAudioBufferIndex`, every row that
is not evicted moves `k` places toward the oldest end, and the last `k` rows
are the rows of the frames `0 .. k - 1`. -/
theorem write_step (P : Platform F) (st st2 : Engine F) (samples : List Int)
    (hr : Ready st) (h : write P st samples = some st2) :
    Ready st2 ∧ st2.width = st.width ∧ st2.numMelBins = st.numMelBins ∧
    st2.frameLength = st.frameLength ∧ st2.frameStep = st.frameStep ∧
    st2.audioBufferIndex =
      nextAudioBufferIndex st.frameLength st.frameStep samples.length st.audioBufferIndex ∧
    (∀ p m : Nat,
      (shiftColumns st.frameLength st.frameStep samples.length st.audioBufferIndex).toNat ≤ p →
      p < st.width → m < st.numMelBins →
      st2.data[(p - (shiftColumns st.frameLength st.frameStep samples.length
        st.audioBufferIndex).toNat) * st.numMelBins + m]? = st.data[p * st.numMelBins + m]?) ∧
    (∀ i m : Nat,
      i < (shiftColumns st.frameLength st.frameStep samples.length st.audioBufferIndex).toNat →
      m < st.numMelBins →
      st2.data[(st.width - (shiftColumns st.frameLength st.frameStep samples.length
        st.audioBufferIndex).toNat + i) * st.numMelBins + m]? =
        (melRow P st (workingSamples st samples) i)[m]?) := by
  obtain ⟨hwf, hS, hSL, hc0, hcL⟩ := hr
  obtain ⟨hk0, hkW⟩ := write_some_shift P st st2 samples h
  have hSi : (0 : Int) < (st.frameStep : Int) := by exact_mod_cast hS
  have hSLi : (st.frameStep : Int) ≤ (st.frameLength : Int) := by exact_mod_cast hSL
  have hb := nextAudioBufferIndex_bounds st.frameLength st.frameStep samples.length
    st.audioBufferIndex hSi hSLi hc0 (by omega)
  have hw := write_eq_some P st samples hwf hS hc0 hcL.le hk0 hkW hb.1 hb.2.le
  have hws := length_workingSamples st samples hc0 (by rw [hwf.2.1]; exact hcL.le)
  have hidx : nextAudioBufferIndex st.frameLength st.frameStep samples.length
      st.audioBufferIndex = (samples.length + st.audioBufferIndex) -
        shiftColumns st.frameLength st.frameStep samples.length st.audioBufferIndex *
          st.frameStep := rfl
  rw [hw] at h
  have h := (Option.some.inj h).symm
  subst h
  obtain ⟨hd, ha, hwin⟩ := hwf
  generalize hkdef : shiftColumns st.frameLength st.frameStep samples.length
    st.audioBufferIndex = k at *
  generalize hidef : nextAudioBufferIndex st.frameLength st.frameStep samples.length
    st.audioBufferIndex = idx at *
  obtain ⟨kn, rfl⟩ := Int.eq_ofNat_of_zero_le hk0
  obtain ⟨jn, rfl⟩ := Int.eq_ofNat_of_zero_le hb.1
  have hkn : kn ≤ st.width := by exact_mod_cast hkW
  have hjn : jn < st.frameLength := by exact_mod_cast hb.2
  have hwsn : (workingSamples st samples).length = kn * st.frameStep + jn := by
    have : ((workingSamples st samples).length : Int) = ((kn * st.frameStep + jn : Nat) : Int) := by
      push_cast
      rw [hws]
      linarith
    exact_mod_cast this
  have hsplit : kn * st.numMelBins + (st.width - kn) * st.numMelBins =
      st.width * st.numMelBins := by
    rw [← Nat.add_mul]
    congr 1
    omega
  have hlenA : (st.data.drop (kn * st.numMelBins)).length = (st.width - kn) * st.numMelBins := by
    simp only [List.length_drop]
    omega
  simp only [Int.toNat_ofNat]
  refine ⟨⟨⟨?_, ?_, hwin⟩, hS, hSL, hb.1, hb.2⟩, trivial, trivial, trivial, trivial,
    trivial, ?_, ?_⟩
  · simp only [List.length_append, List.length_drop, List.length_map, List.length_range,
      length_flatten_rows _ _ (length_melRow P st _)]
    omega
  · simp only [List.length_append, List.length_drop]
    omega
  · intro p m hp hpW hm
    have h1 : (p - kn + 1) * st.numMelBins ≤ (st.width - kn) * st.numMelBins :=
      Nat.mul_le_mul_right _ (by omega)
    have h2 : (p - kn + 1) * st.numMelBins = (p - kn) * st.numMelBins + st.numMelBins := by ring
    have h3 : kn * st.numMelBins + (p - kn) * st.numMelBins = p * st.numMelBins := by
      rw [← Nat.add_mul]
      congr 1
      omega
    have hlt : (p - kn) * st.numMelBins + m < (st.data.drop (kn * st.numMelBins)).length := by
      omega
    show (st.data.drop (kn * st.numMelBins) ++ _)[(p - kn) * st.numMelBins + m]? = _
    rw [List.getElem?_append_left hlt, List.getElem?_drop, ← Nat.add_assoc, h3]
  · intro i m hi hm
    have hge : (st.data.drop (kn * st.numMelBins)).length ≤
        (st.width - kn + i) * st.numMelBins + m := by
      rw [hlenA, Nat.add_mul]
      omega
    have hsub : (st.width - kn + i) * st.numMelBins + m -
        (st.data.drop (kn * st.numMelBins)).length = i * st.numMelBins + m := by
      rw [hlenA, Nat.add_mul]
      omega
    show (st.data.drop (kn * st.numMelBins) ++ _)[(st.width - kn + i) * st.numMelBins + m]? = _
    rw [List.getElem?_append_right hge, hsub, List.range_eq_range',
      getElem?_flatten_rows _ _ (length_melRow P st _) kn 0 i m hi hm, Nat.zero_add]

theorem carryAfter_bounds (L S : Int) (hS : 0 < S) (hSL : S ≤ L) :
    ∀ (counts : List Int) (c : Int), 0 ≤ c → c < L → (∀ n ∈ counts, 0 ≤ n) →
      0 ≤ carryAfter L S c counts ∧ carryAfter L S c counts < L := by
  intro counts
  induction counts with
  | nil =>
    intro c hc hcL _
    exact ⟨hc, hcL⟩
  | cons n counts ih =>
    intro c hc hcL hn
    have hb := nextAudioBufferIndex_bounds L S n c hS hSL hc (hn n (List.mem_cons_self _ _))
    exact ih (nextAudioBufferIndex L S n c) hb.1 hb.2
      (fun k hk => hn k (List.mem_cons_of_mem _ hk))

/-- A series of writes from a ready state: the geometry is unchanged, the last
state is ready, its carry count is the value of `carryAfter`, and a row that is
not evicted has moved toward the oldest end by the total number of columns
shifted. -/
theorem writeAll_spec (P : Platform F) :
    ∀ (chunks : List (List Int)) (st st3 : Engine F) (T : Nat),
      Ready st → writeAll P st chunks = some (st3, T) →
      Ready st3 ∧ st3.width = st.width ∧ st3.numMelBins = st.numMelBins ∧
      st3.frameLength = st.frameLength ∧ st3.frameStep = st.frameStep ∧
      st3.audioBufferIndex =
        carryAfter st.frameLength st.frameStep st.audioBufferIndex
          (chunks.map fun samples => (samples.length : Int)) ∧
      ∀ p m : Nat, T ≤ p → p < st.width → m < st.numMelBins →
        st3.data[(p - T) * st.numMelBins + m]? = st.data[p * st.numMelBins + m]? := by
  intro chunks
  induction chunks with
  | nil =>
    intro st st3 T hr h
    simp only [writeAll, Option.some.injEq, Prod.mk.injEq] at h
    obtain ⟨rfl, rfl⟩ := h
    refine ⟨hr, rfl, rfl, rfl, rfl, rfl, ?_⟩
    intro p m _ _ _
    rw [Nat.sub_zero]
  | cons samples rest ih =>
    intro st st3 T hr h
    simp only [writeAll, Option.bind_eq_some, Option.map_eq_some', Prod.mk.injEq,
      Prod.exists] at h
    obtain ⟨st2, hw, st3b, T2, hrest, rfl, rfl⟩ := h
    obtain ⟨hr2, hW, hM, hL, hSt, hidx, hrow, -⟩ := write_step P st st2 samples hr hw
    obtain ⟨hr3, hW3, hM3, hL3, hS3, hidx3, hrow3⟩ := ih st2 st3b T2 hr2 hrest
    refine ⟨hr3, hW3.trans hW, hM3.trans hM, hL3.trans hL, hS3.trans hSt, ?_, ?_⟩
    · rw [hidx3, hL, hSt, hidx]
      rfl
    · intro p m hp hpW hm
      have h1 := hrow3 (p - (shiftColumns st.frameLength st.frameStep samples.length
        st.audioBufferIndex).toNat) m (by omega) (by rw [hW]; omega) (by rw [hM]; exact hm)
      have h2 := hrow p m (by omega) hpW hm
      rw [hM] at h1
      rw [← h2, ← h1, Nat.sub_sub]

theorem length_memsetZero (P : Platform F) :
    ∀ (xs : List F) (n : Nat), (memsetZero P xs n).length = xs.length := by
  intro xs
  induction xs with
  | nil =>
    intro n
    rfl
  | cons x xs ih =>
    intro n
    unfold memsetZero
    split_ifs
    · simp [ih]
    · rfl
    · rfl

/-- Cells that lie wholly inside the first `n` bytes are zero after `memset`. -/
theorem getElem?_memsetZero_of_inside (P : Platform F) :
    ∀ (xs : List F) (n i : Nat), i < xs.length → 4 * (i + 1) ≤ n →
      (memsetZero P xs n)[i]? = some 0 := by
  intro xs
  induction xs with
  | nil =>
    intro n i hi _
    simp at hi
  | cons x xs ih =>
    intro n i hi hn
    have h4 : 4 ≤ n := by omega
    simp only [memsetZero, h4, if_true]
    cases i with
    | zero => exact List.getElem?_cons_zero
    | succ i =>
      rw [List.getElem?_cons_succ]
      exact ih (n - 4) i (by simpa using hi) (by omega)

/-- Cells that start at or after byte `n` are left as they were by `memset`. -/
theorem getElem?_memsetZero_of_outside (P : Platform F) :
    ∀ (xs : List F) (n i : Nat), n ≤ 4 * i →
      (memsetZero P xs n)[i]? = xs[i]? := by
  intro xs
  induction xs with
  | nil =>
    intro n i _
    rfl
  | cons x xs ih =>
    intro n i hn
    unfold memsetZero
    split_ifs with h4 h0
    · cases i with
      | zero => omega
      | succ i =>
        rw [List.getElem?_cons_succ, List.getElem?_cons_succ]
        exact ih (n - 4) i (by omega)
    · cases i with
      | zero => omega
      | succ i => rfl
    · rfl

/-- A state returned by `begin` is ready for `write` when `0 < S`, and its
carry count is `0`. -/
theorem begin_ready (P : Platform F) (cfg : Config F) (inputScale outputScale : F)
    (outputZeroPoint : Int) (freshData freshAudio : Nat → F) (st : Engine F)
    (hS : 0 < cfg.frameStep)
    (h : begin P cfg inputScale outputScale outputZeroPoint freshData freshAudio = some st) :
    Ready st ∧ st.audioBufferIndex = 0 ∧ st.frameLength = cfg.frameLength ∧
      st.frameStep = cfg.frameStep := by
  unfold begin at h
  split_ifs at h with h1 h2
  have h := (Option.some.inj h).symm
  subst h
  refine ⟨⟨⟨?_, ?_, ?_⟩, hS, ?_, le_rfl, ?_⟩, rfl, rfl, rfl⟩
  · simp [length_memsetZero]
  · simp [length_memsetZero]
  · simp
  · show cfg.frameStep ≤ cfg.frameLength
    omega
  · show (0 : Int) < (cfg.frameLength : Int)
    omega

/-! ## Claims on the order of the rows and on the carry count -/

/-- C8 (monotonic time ordering).  In a write that produces `k` columns,
`0 < k ≤ W`, the row computed from frame `i` (the samples from offset `i * S`
of the working sequence `carry ++ newSamples`), `i < k`, is stored at row
`W - k + i`, which is strictly below the row `W - k + (i + 1)` of the next
frame.  After any later series of writes that shifts `T` columns in total, a
row that is not evicted (`T ≤ W - k + i`) sits at row `W - k + i - T`, so the
rows of frames `i` and `i + 1` keep their order. -/
theorem write_row_order (P : Platform F) (st : Engine F) (samples : List Int)
    (hwf : WellFormed st)
    (hS : 0 < st.frameStep) (hSL : st.frameStep ≤ st.frameLength)
    (hc0 : 0 ≤ st.audioBufferIndex) (hcL : st.audioBufferIndex < (st.frameLength : Int))
    (hk0 : 0 < shiftColumns st.frameLength st.frameStep samples.length st.audioBufferIndex)
    (hkW : shiftColumns st.frameLength st.frameStep samples.length st.audioBufferIndex
      ≤ (st.width : Int)) :
    ∃ st2 : Engine F,
      write P st samples = some st2 ∧
      (∀ i m : Nat,
        i < (shiftColumns st.frameLength st.frameStep samples.length
          st.audioBufferIndex).toNat →
        m < st.numMelBins →
        st.width - (shiftColumns st.frameLength st.frameStep samples.length
          st.audioBufferIndex).toNat + i < st.width ∧
        m < (melRow P st (workingSamples st samples) i).length ∧
        st2.data[(st.width - (shiftColumns st.frameLength st.frameStep samples.length
          st.audioBufferIndex).toNat + i) * st.numMelBins + m]? =
          (melRow P st (workingSamples st samples) i)[m]?) ∧
      ∀ (later : List (List Int)) (st3 : Engine F) (T : Nat),
        writeAll P st2 later = some (st3, T) →
        ∀ i m : Nat,
          i < (shiftColumns st.frameLength st.frameStep samples.length
            st.audioBufferIndex).toNat →
          m < st.numMelBins →
          T ≤ st.width - (shiftColumns st.frameLength st.frameStep samples.length
            st.audioBufferIndex).toNat + i →
          st.width - (shiftColumns st.frameLength st.frameStep samples.length
              st.audioBufferIndex).toNat + i - T <
            st.width - (shiftColumns st.frameLength st.frameStep samples.length
              st.audioBufferIndex).toNat + (i + 1) - T ∧
          st3.data[(st.width - (shiftColumns st.frameLength st.frameStep samples.length
            st.audioBufferIndex).toNat + i - T) * st.numMelBins + m]? =
            (melRow P st (workingSamples st samples) i)[m]? := by
  have hSi : (0 : Int) < (st.frameStep : Int) := by exact_mod_cast hS
  have hSLi : (st.frameStep : Int) ≤ (st.frameLength : Int) := by exact_mod_cast hSL
  have hb := nextAudioBufferIndex_bounds st.frameLength st.frameStep samples.length
    st.audioBufferIndex hSi hSLi hc0 (by omega)
  have hw := write_eq_some P st samples hwf hS hc0 hcL.le hk0.le hkW hb.1 hb.2.le
  have hr : Ready st := ⟨hwf, hS, hSL, hc0, hcL⟩
  obtain ⟨hr2, hW, hM, -, -, -, -, hnew⟩ := write_step P st _ samples hr hw
  have hkn : (shiftColumns st.frameLength st.frameStep samples.length
      st.audioBufferIndex).toNat ≤ st.width := by
    have : (((shiftColumns st.frameLength st.frameStep samples.length
        st.audioBufferIndex).toNat : Nat) : Int) ≤ st.width := by
      rw [Int.toNat_of_nonneg hk0.le]
      exact hkW
    exact_mod_cast this
  refine ⟨_, hw, ?_, ?_⟩
  · intro i m hi hm
    exact ⟨by omega, by rw [length_melRow]; exact hm, hnew i m hi hm⟩
  · intro later st3 T hall i m hi hm hT
    obtain ⟨-, -, -, -, -, -, hrow⟩ := writeAll_spec P later _ st3 T hr2 hall
    refine ⟨by omega, ?_⟩
    have h1 := hrow (st.width - (shiftColumns st.frameLength st.frameStep samples.length
      st.audioBufferIndex).toNat + i) m hT (by rw [hW]; omega) (by rw [hM]; exact hm)
    rw [hM] at h1
    rw [h1]
    exact hnew i m hi hm

/-- Evaluation of `write_row_order` on `sampleEngine` with two new samples: one
column is produced and the row of frame 0 is stored at row 1. -/
theorem write_row_order_witness :
    WellFormed sampleEngine ∧
    0 < sampleEngine.frameStep ∧ sampleEngine.frameStep ≤ sampleEngine.frameLength ∧
    0 ≤ sampleEngine.audioBufferIndex ∧
    sampleEngine.audioBufferIndex < (sampleEngine.frameLength : Int) ∧
    0 < shiftColumns sampleEngine.frameLength sampleEngine.frameStep
      ([100, 200] : List Int).length sampleEngine.audioBufferIndex ∧
    shiftColumns sampleEngine.frameLength sampleEngine.frameStep
      ([100, 200] : List Int).length sampleEngine.audioBufferIndex ≤ (sampleEngine.width : Int) ∧
    ∃ st2 : Engine ℚ,
      write samplePlatform sampleEngine [100, 200] = some st2 ∧
      st2.data[1]? =
        (melRow samplePlatform sampleEngine (workingSamples sampleEngine [100, 200]) 0)[0]? := by
  obtain ⟨st2, hw, h, -⟩ := write_row_order samplePlatform sampleEngine [100, 200]
    ⟨rfl, rfl, rfl⟩ (by decide) (by decide) (by decide) (by decide) (by decide) (by decide)
  refine ⟨⟨rfl, rfl, rfl⟩, by decide, by decide, by decide, by decide, by decide, by decide,
    st2, hw, ?_⟩
  have h0 := (h 0 0 (by decide) (by decide)).2.2
  have e : (sampleEngine.width - (shiftColumns sampleEngine.frameLength sampleEngine.frameStep
      ([100, 200] : List Int).length sampleEngine.audioBufferIndex).toNat + 0) *
      sampleEngine.numMelBins + 0 = 1 := by decide
  rw [e] at h0
  exact h0

/-- C9 (carry-index invariant).  For `0 < S ≤ L` and a state with
`0 ≤ carryCount < L`: after `clear` the carry count is within `0 ≤ · < L`; the
value that `write` assigns to the carry count is within `0 ≤ · < L` for every
count, whatever the sign of the frame count; every state returned by `write`
has its carry count within these bounds, and `write` returns a state whenever
the frame count is between `0` and `W`; and every state returned by `begin`
with `0 < S` has carry count `0`, within the bounds. -/
theorem carry_index_invariant (P : Platform F) (st : Engine F) (samples : List Int)
    (hwf : WellFormed st)
    (hS : 0 < st.frameStep) (hSL : st.frameStep ≤ st.frameLength)
    (hc0 : 0 ≤ st.audioBufferIndex) (hcL : st.audioBufferIndex < (st.frameLength : Int)) :
    (0 ≤ (clear P st).audioBufferIndex ∧
      (clear P st).audioBufferIndex < ((clear P st).frameLength : Int)) ∧
    (0 ≤ nextAudioBufferIndex st.frameLength st.frameStep samples.length
        st.audioBufferIndex ∧
      nextAudioBufferIndex st.frameLength st.frameStep samples.length
        st.audioBufferIndex < (st.frameLength : Int)) ∧
    (∀ st2 : Engine F, write P st samples = some st2 →
      0 ≤ st2.audioBufferIndex ∧ st2.audioBufferIndex < (st2.frameLength : Int)) ∧
    (0 ≤ shiftColumns st.frameLength st.frameStep samples.length st.audioBufferIndex →
      shiftColumns st.frameLength st.frameStep samples.length st.audioBufferIndex ≤
        (st.width : Int) →
      ∃ st2 : Engine F, write P st samples = some st2) ∧
    (∀ (cfg : Config F) (inputScale outputScale : F) (outputZeroPoint : Int)
        (freshData freshAudio : Nat → F) (st0 : Engine F),
      0 < cfg.frameStep →
      begin P cfg inputScale outputScale outputZeroPoint freshData freshAudio = some st0 →
      st0.audioBufferIndex = 0 ∧
        0 ≤ st0.audioBufferIndex ∧ st0.audioBufferIndex < (st0.frameLength : Int)) := by
  have hSi : (0 : Int) < (st.frameStep : Int) := by exact_mod_cast hS
  have hSLi : (st.frameStep : Int) ≤ (st.frameLength : Int) := by exact_mod_cast hSL
  have hb := nextAudioBufferIndex_bounds st.frameLength st.frameStep samples.length
    st.audioBufferIndex hSi hSLi hc0 (by omega)
  refine ⟨⟨le_rfl, ?_⟩, hb, ?_, ?_, ?_⟩
  · show (0 : Int) < (st.frameLength : Int)
    omega
  · intro st2 h
    obtain ⟨hr2, -⟩ := write_step P st st2 samples ⟨hwf, hS, hSL, hc0, hcL⟩ h
    exact ⟨hr2.2.2.2.1, hr2.2.2.2.2⟩
  · intro hk0 hkW
    exact ⟨_, write_eq_some P st samples hwf hS hc0 hcL.le hk0 hkW hb.1 hb.2.le⟩
  · intro cfg inputScale outputScale outputZeroPoint freshData freshAudio st0 hS0 h
    obtain ⟨hr0, h0, -, -⟩ := begin_ready P cfg inputScale outputScale outputZeroPoint
      freshData freshAudio st0 hS0 h
    exact ⟨h0, hr0.2.2.2.1, hr0.2.2.2.2⟩

/-- Evaluation of `carry_index_invariant` on `sampleEngine` with two new
samples: the carry count becomes `1`, below `L = 2`. -/
theorem carry_index_invariant_witness :
    WellFormed sampleEngine ∧
    0 < sampleEngine.frameStep ∧ sampleEngine.frameStep ≤ sampleEngine.frameLength ∧
    0 ≤ sampleEngine.audioBufferIndex ∧
    sampleEngine.audioBufferIndex < (sampleEngine.frameLength : Int) ∧
    nextAudioBufferIndex sampleEngine.frameLength sampleEngine.frameStep
      ([100, 200] : List Int).length sampleEngine.audioBufferIndex = 1 ∧
    ∃ st2 : Engine ℚ, write samplePlatform sampleEngine [100, 200] = some st2 ∧
      0 ≤ st2.audioBufferIndex ∧ st2.audioBufferIndex < (st2.frameLength : Int) := by
  have h := carry_index_invariant samplePlatform sampleEngine [100, 200]
    ⟨rfl, rfl, rfl⟩ (by decide) (by decide) (by decide) (by decide)
  obtain ⟨st2, hw⟩ := h.2.2.2.1 (by decide) (by decide)
  exact ⟨⟨rfl, rfl, rfl⟩, by decide, by decide, by decide, by decide, by decide,
    st2, hw, h.2.2.1 st2 hw⟩

/-- C10, counterexample.  With `L = 4` and `S = 2`, a write of three samples
to the engine that `begin` returns leaves a carry count of `3`, which is more
than `L - S = 2`. -/
theorem carry_exceeds_overlap :
    begin samplePlatform strideConfig 1 1 0 (fun _ => 0) (fun _ => 0) = some strideEngine ∧
    (write samplePlatform strideEngine [0, 0, 0]).map (fun st => st.audioBufferIndex) =
      some 3 ∧
    ¬ ((3 : Int) ≤ (strideEngine.frameLength : Int) - (strideEngine.frameStep : Int)) := by
  refine ⟨?_, ?_, by decide⟩
  · simp [begin, strideConfig, strideEngine, samplePlatform, memsetZero, windowCoeff,
      List.range_succ]
  · rw [write_eq_some samplePlatform strideEngine [0, 0, 0] ⟨rfl, rfl, rfl⟩ (by decide)
      (by decide) (by decide) (by decide) (by decide) (by decide) (by decide)]
    simp only [Option.map_some', Option.some.injEq]
    decide

/-- C10 as amended (carry size bound).  For `0 < S ≤ L` and every series of
writes starting from an engine with carry count `0`, the carry count after the
series is at least `0` and at most `L - 1`: this holds for the value that the
successive assignments of `write` compute from the sample counts, and the state
that the series of writes returns carries exactly that value. -/
theorem carry_after_writes_bound (P : Platform F) (st : Engine F)
    (chunks : List (List Int)) (hwf : WellFormed st)
    (hS : 0 < st.frameStep) (hSL : st.frameStep ≤ st.frameLength)
    (h0 : st.audioBufferIndex = 0) :
    (0 ≤ carryAfter st.frameLength st.frameStep 0
        (chunks.map fun samples => (samples.length : Int)) ∧
      carryAfter st.frameLength st.frameStep 0
        (chunks.map fun samples => (samples.length : Int)) ≤ (st.frameLength : Int) - 1) ∧
    ∀ (st3 : Engine F) (T : Nat), writeAll P st chunks = some (st3, T) →
      st3.audioBufferIndex = carryAfter st.frameLength st.frameStep 0
        (chunks.map fun samples => (samples.length : Int)) ∧
      0 ≤ st3.audioBufferIndex ∧ st3.audioBufferIndex ≤ (st.frameLength : Int) - 1 := by
  have hSi : (0 : Int) < (st.frameStep : Int) := by exact_mod_cast hS
  have hSLi : (st.frameStep : Int) ≤ (st.frameLength : Int) := by exact_mod_cast hSL
  have hb := carryAfter_bounds st.frameLength st.frameStep hSi hSLi
    (chunks.map fun samples => (samples.length : Int)) 0 le_rfl (by omega)
    (by
      intro n hn
      obtain ⟨samples, -, rfl⟩ := List.mem_map.1 hn
      exact Int.natCast_nonneg _)
  refine ⟨⟨hb.1, by omega⟩, ?_⟩
  intro st3 T h
  have hr : Ready st := ⟨hwf, hS, hSL, by rw [h0], by rw [h0]; omega⟩
  obtain ⟨-, -, -, -, -, hidx, -⟩ := writeAll_spec P chunks st st3 T hr h
  rw [h0] at hidx
  rw [hidx]
  exact ⟨rfl, hb.1, by omega⟩

/-- Evaluation of `carry_after_writes_bound` on `strideEngine` with one chunk
of three samples: the carry count is `3 = L - 1`. -/
theorem carry_after_writes_bound_witness :
    WellFormed strideEngine ∧
    0 < strideEngine.frameStep ∧ strideEngine.frameStep ≤ strideEngine.frameLength ∧
    strideEngine.audioBufferIndex = 0 ∧
    carryAfter strideEngine.frameLength strideEngine.frameStep 0
      (([[0, 0, 0]] : List (List Int)).map fun samples => (samples.length : Int)) = 3 ∧
    carryAfter strideEngine.frameLength strideEngine.frameStep 0
      (([[0, 0, 0]] : List (List Int)).map fun samples => (samples.length : Int)) ≤
        (strideEngine.frameLength : Int) - 1 :=
  ⟨⟨rfl, rfl, rfl⟩, by decide, by decide, rfl, by decide,
    (carry_after_writes_bound samplePlatform strideEngine [[0, 0, 0]] ⟨rfl, rfl, rfl⟩
      (by decide) (by decide) rfl).1.2⟩

/-! ## Well-definedness of `write`, initialization and teardown -/

/-- C11, counterexample.  With `W = 1`, `L = 4`, `S = 2` and an empty carry, a
write of six samples has frame count `2`, which is more than `W`: the number of
surviving columns `W - k` is negative and the call has no defined result. -/
theorem write_count_not_arbitrary :
    shiftColumns strideEngine.frameLength strideEngine.frameStep
      ([0, 0, 0, 0, 0, 0] : List Int).length strideEngine.audioBufferIndex = 2 ∧
    ¬ ((2 : Int) ≤ (strideEngine.width : Int)) ∧
    write samplePlatform strideEngine [0, 0, 0, 0, 0, 0] = none := by
  refine ⟨by decide, by decide, ?_⟩
  apply write_eq_none_of_shift_gt
  decide

/-- C11 as amended (accepted counts).  For an engine with `0 < S ≤ L` and
`0 ≤ carry < L` and every count whose frame count `k` satisfies `0 ≤ k ≤ W`,
`write` returns a state; the cells that the shift reads, `k * M` up to
`k * M + (W - k) * M`, and the cells that frame `i < k` stores,
`(W - k) * M + i * M` up to `(W - k) * M + (i + 1) * M`, lie within the
`W * M` cells of the buffer, which keeps `W * M` cells. -/
theorem write_defined_in_range (P : Platform F) (st : Engine F) (samples : List Int)
    (hwf : WellFormed st)
    (hS : 0 < st.frameStep) (hSL : st.frameStep ≤ st.frameLength)
    (hc0 : 0 ≤ st.audioBufferIndex) (hcL : st.audioBufferIndex < (st.frameLength : Int))
    (hk0 : 0 ≤ shiftColumns st.frameLength st.frameStep samples.length st.audioBufferIndex)
    (hkW : shiftColumns st.frameLength st.frameStep samples.length st.audioBufferIndex
      ≤ (st.width : Int)) :
    (∃ st2 : Engine F, write P st samples = some st2 ∧
      st2.data.length = st.width * st.numMelBins) ∧
    (shiftColumns st.frameLength st.frameStep samples.length st.audioBufferIndex).toNat *
        st.numMelBins +
      (st.width - (shiftColumns st.frameLength st.frameStep samples.length
        st.audioBufferIndex).toNat) * st.numMelBins ≤ st.data.length ∧
    ∀ i : Nat,
      i < (shiftColumns st.frameLength st.frameStep samples.length
        st.audioBufferIndex).toNat →
      (st.width - (shiftColumns st.frameLength st.frameStep samples.length
        st.audioBufferIndex).toNat) * st.numMelBins + (i + 1) * st.numMelBins ≤
        st.data.length := by
  have hr : Ready st := ⟨hwf, hS, hSL, hc0, hcL⟩
  have hSi : (0 : Int) < (st.frameStep : Int) := by exact_mod_cast hS
  have hSLi : (st.frameStep : Int) ≤ (st.frameLength : Int) := by exact_mod_cast hSL
  have hb := nextAudioBufferIndex_bounds st.frameLength st.frameStep samples.length
    st.audioBufferIndex hSi hSLi hc0 (by omega)
  have hw := write_eq_some P st samples hwf hS hc0 hcL.le hk0 hkW hb.1 hb.2.le
  obtain ⟨hr2, hW, hM, -⟩ := write_step P st _ samples hr hw
  obtain ⟨hd, -, -⟩ := hwf
  generalize hkdef : (shiftColumns st.frameLength st.frameStep samples.length
    st.audioBufferIndex).toNat = kn at *
  have hkn : kn ≤ st.width := by
    have : ((kn : Nat) : Int) ≤ st.width := by
      rw [← hkdef, Int.toNat_of_nonneg hk0]
      exact hkW
    exact_mod_cast this
  have hsplit : kn * st.numMelBins + (st.width - kn) * st.numMelBins =
      st.width * st.numMelBins := by
    rw [← Nat.add_mul]
    congr 1
    omega
  refine ⟨⟨_, hw, ?_⟩, by omega, ?_⟩
  · have := hr2.1.1
    rw [hW, hM] at this
    exact this
  · intro i hi
    have h1 : (i + 1) * st.numMelBins ≤ kn * st.numMelBins :=
      Nat.mul_le_mul_right _ (by omega)
    omega

/-- Evaluation of `write_defined_in_range` on `sampleEngine` with two new
samples, for which the frame count is `1`. -/
theorem write_defined_in_range_witness :
    WellFormed sampleEngine ∧
    0 < sampleEngine.frameStep ∧ sampleEngine.frameStep ≤ sampleEngine.frameLength ∧
    0 ≤ sampleEngine.audioBufferIndex ∧
    sampleEngine.audioBufferIndex < (sampleEngine.frameLength : Int) ∧
    0 ≤ shiftColumns sampleEngine.frameLength sampleEngine.frameStep
      ([100, 200] : List Int).length sampleEngine.audioBufferIndex ∧
    shiftColumns sampleEngine.frameLength sampleEngine.frameStep
      ([100, 200] : List Int).length sampleEngine.audioBufferIndex ≤ (sampleEngine.width : Int) ∧
    ∃ st2 : Engine ℚ, write samplePlatform sampleEngine [100, 200] = some st2 ∧
      st2.data.length = sampleEngine.width * sampleEngine.numMelBins :=
  ⟨⟨rfl, rfl, rfl⟩, by decide, by decide, by decide, by decide, by decide, by decide,
    (write_defined_in_range samplePlatform sampleEngine [100, 200] ⟨rfl, rfl, rfl⟩
      (by decide) (by decide) (by decide) (by decide) (by decide) (by decide)).1⟩

/-- C12 (initialization zeroing), evaluation at the failing input.  With
`W = 2`, `M = 2`, `L = 2`, `S = 1`, `N = 32` and newly allocated memory that holds `1` in
every cell, `begin` succeeds and leaves the spectrogram buffer `[0, 1, 1, 1]`
(its `memset` covers `W * M = 4` bytes, one float) and the carry buffer `[0, 1]`
(its `memset` covers `S` floats of `L`); the carry count is `0`. -/
theorem begin_zeroes_part :
    (begin samplePlatform quarterConfig 1 1 0 (fun _ => 1) (fun _ => 1)).map
      (fun st => (st.data, st.audioBuffer, st.audioBufferIndex)) =
        some ([0, 1, 1, 1], [0, 1], 0) := by
  simp [begin, quarterConfig, samplePlatform, memsetZero, List.range_succ]

/-- C14 (teardown is idempotent).  For every object state `o`,
`end(end(o)) = end(o)`; after `end` the window, the audio buffer and the
spectrogram buffer are absent; and `end` leaves the borrowed weight matrix, the
geometry, the quantization parameters and the carry count as they were. -/
theorem end_idempotent (o : Object F) :
    end_ (end_ o) = end_ o ∧
    (end_ o).window = none ∧ (end_ o).audioBuffer = none ∧ (end_ o).data = none ∧
    (end_ o).weightMatrix = o.weightMatrix ∧
    (end_ o).width = o.width ∧ (end_ o).numMelBins = o.numMelBins ∧
    (end_ o).frameLength = o.frameLength ∧ (end_ o).frameStep = o.frameStep ∧
    (end_ o).fftSize = o.fftSize ∧ (end_ o).topDb = o.topDb ∧
    (end_ o).inputScale = o.inputScale ∧ (end_ o).outputScale = o.outputScale ∧
    (end_ o).outputZeroPoint = o.outputZeroPoint ∧
    (end_ o).audioBufferIndex = o.audioBufferIndex := by
  obtain ⟨w, m, l, s, n, d, wm, isc, osc, zp, data, audio, idx, win⟩ := o
  cases data <;> cases audio <;> cases win <;>
    simp [end_, releaseData, releaseAudioBuffer, releaseWindow]

/-! ## Window coefficients -/

/-- The window array of a state returned by `begin` holds the values of
`windowCoeff` for the indices `0 .. L - 1`. -/
theorem begin_window (P : Platform F) (cfg : Config F) (inputScale outputScale : F)
    (outputZeroPoint : Int) (freshData freshAudio : Nat → F) (st : Engine F)
    (h : begin P cfg inputScale outputScale outputZeroPoint freshData freshAudio = some st) :
    st.window = (List.range cfg.frameLength).map (windowCoeff P cfg.frameLength) := by
  unfold begin at h
  split_ifs at h with h1 h2
  have h := (Option.some.inj h).symm
  subst h
  rfl

/-- With the exact cosine the coefficient at `L - i` equals the coefficient at `i`. -/
theorem windowCoeff_reflect (P : Platform ℝ) (hcos : P.cos = Real.cos) (hpi : P.pi = Real.pi)
    (L i : Nat) (hi : i ≤ L) (hL : 0 < L) :
    windowCoeff P L (L - i) = windowCoeff P L i := by
  have hLr : (L : ℝ) ≠ 0 := by exact_mod_cast hL.ne'
  have e : 2 * Real.pi * ((L - i : Nat) : ℝ) / (L : ℝ) =
      2 * Real.pi - 2 * Real.pi * (i : ℝ) / (L : ℝ) := by
    rw [Nat.cast_sub hi]
    field_simp
    ring
  simp only [windowCoeff, hcos, hpi, e, Real.cos_two_pi_sub]

/-- C15, counterexample.  With the exact cosine and `L = 2`, the coefficient at
index `0` is `0` and the coefficient at index `L - 1 - 0 = 1` is `1`. -/
theorem window_not_mirror_symmetric :
    windowCoeff (Platform.mk (fun xs => xs) Real.sqrt Real.log Real.cos Real.pi
      (fun _ => true) (fun _ x => x) (fun _ _ => 0)) 2 0 = 0 ∧
    windowCoeff (Platform.mk (fun xs => xs) Real.sqrt Real.log Real.cos Real.pi
      (fun _ => true) (fun _ x => x) (fun _ _ => 0)) 2 (2 - 1 - 0) = 1 := by
  constructor
  · simp [windowCoeff]
  · have e : 2 * Real.pi * ((2 - 1 - 0 : Nat) : ℝ) / ((2 : Nat) : ℝ) = Real.pi := by
      norm_num
    simp only [windowCoeff, e, Real.cos_pi]
    norm_num

/-- C15 as amended (window symmetry).  With the exact cosine, for every frame
length `L ≥ 1` the coefficients that `begin` computes are symmetric about
`L / 2`: `window[i] = window[L - i]` for every `i` with `1 ≤ i ≤ L - 1`, and
`window[0] = 0`.  The array of a state returned by `begin` is this array. -/
theorem window_periodic_symmetry (P : Platform ℝ) (hcos : P.cos = Real.cos)
    (hpi : P.pi = Real.pi) (L i : Nat) (hi1 : 1 ≤ i) (hiL : i < L) :
    ((List.range L).map (windowCoeff P L))[i]? = some (windowCoeff P L i) ∧
    ((List.range L).map (windowCoeff P L))[L - i]? = some (windowCoeff P L i) ∧
    ((List.range L).map (windowCoeff P L))[0]? = some 0 ∧
    ∀ (cfg : Config ℝ) (inputScale outputScale : ℝ) (outputZeroPoint : Int)
      (freshData freshAudio : Nat → ℝ) (st : Engine ℝ),
      cfg.frameLength = L →
      begin P cfg inputScale outputScale outputZeroPoint freshData freshAudio = some st →
      st.window = (List.range L).map (windowCoeff P L) := by
  have hL : 0 < L := by omega
  refine ⟨?_, ?_, ?_, ?_⟩
  · rw [List.getElem?_map, List.getElem?_range hiL]
    rfl
  · rw [List.getElem?_map, List.getElem?_range (by omega : L - i < L)]
    simp only [Option.map_some']
    rw [windowCoeff_reflect P hcos hpi L i hiL.le hL]
  · rw [List.getElem?_map, List.getElem?_range hL]
    simp [windowCoeff, hcos]
  · intro cfg inputScale outputScale outputZeroPoint freshData freshAudio st hcfg h
    rw [← hcfg]
    exact begin_window P cfg inputScale outputScale outputZeroPoint freshData freshAudio st h

/-- Evaluation of `window_periodic_symmetry` with the exact cosine at `L = 4`,
`i = 1`: the coefficients at indices `1` and `3` are equal. -/
theorem window_periodic_symmetry_witness :
    (1 : Nat) ≤ 1 ∧ (1 : Nat) < 4 ∧
    ((List.range 4).map (windowCoeff (Platform.mk (fun xs => xs) Real.sqrt Real.log
      Real.cos Real.pi (fun _ => true) (fun _ x => x) (fun _ _ => 0)) 4))[1]? =
    ((List.range 4).map (windowCoeff (Platform.mk (fun xs => xs) Real.sqrt Real.log
      Real.cos Real.pi (fun _ => true) (fun _ x => x) (fun _ _ => 0)) 4))[4 - 1]? := by
  have h := window_periodic_symmetry (Platform.mk (fun xs => xs) Real.sqrt Real.log
    Real.cos Real.pi (fun _ => true) (fun _ x => x) (fun _ _ => 0)) rfl rfl 4 1
    (by decide) (by decide)
  exact ⟨by decide, by decide, h.1.trans h.2.1.symm⟩

/-! ## Power floor and steady-state carry -/

theorem log_millionth : Real.log (1 / 1000000) = -6 * Real.log 10 := by
  have e : (1 / 1000000 : ℝ) = ((10 : ℝ) ^ 6)⁻¹ := by norm_num
  rw [e, Real.log_inv, Real.log_pow]
  push_cast
  ring

/-- Power floor in exact arithmetic.  With the exact logarithm, the value that
`write` computes from a real number `mel` is `10 * log10(max(mel^2, 1e-6))` and
is at least `-60`; every cell of a row is such a value.  The statement is about
real numbers only: a frame that reaches past the arrays (`N > L`) can bring in
values that are not numbers. -/
theorem melValue_floor (P : Platform ℝ) (hlog : P.logf = Real.log) :
    (∀ mel : ℝ,
      melValue P mel = 10 * Real.logb 10 (max (mel * mel) (1 / 1000000)) ∧
      -60 ≤ melValue P mel) ∧
    ∀ (st : Engine ℝ) (fSamples : List ℝ) (i : Nat) (v : ℝ),
      v ∈ melRow P st fSamples i →
      ∃ mel : ℝ, v = melValue P mel ∧
        v = 10 * Real.logb 10 (max (mel * mel) (1 / 1000000)) ∧ -60 ≤ v := by
  have hval : ∀ mel : ℝ,
      melValue P mel = 10 * Real.logb 10 (max (mel * mel) (1 / 1000000)) ∧
      -60 ≤ melValue P mel := by
    intro mel
    have hmax : (if mel * mel < 1 / 1000000 then (1 / 1000000 : ℝ) else mel * mel) =
        max (mel * mel) (1 / 1000000) := by
      split_ifs with h
      · exact (max_eq_right h.le).symm
      · exact (max_eq_left (not_lt.1 h)).symm
    have heq : melValue P mel = 10 * Real.logb 10 (max (mel * mel) (1 / 1000000)) := by
      simp only [melValue, hlog, hmax, Real.logb, mul_div_assoc]
    refine ⟨heq, ?_⟩
    rw [heq]
    have h10 : (0 : ℝ) < Real.log 10 := Real.log_pos (by norm_num)
    have hpos : (0 : ℝ) < 1 / 1000000 := by norm_num
    have hle : Real.log (1 / 1000000) ≤ Real.log (max (mel * mel) (1 / 1000000)) :=
      Real.log_le_log hpos (le_max_right _ _)
    have hdiv : -6 ≤ Real.logb 10 (max (mel * mel) (1 / 1000000)) := by
      rw [Real.logb, le_div_iff₀ h10]
      rw [log_millionth] at hle
      exact hle
    linarith
  refine ⟨hval, ?_⟩
  intro st fSamples i v hv
  simp only [melRow, List.mem_map] at hv
  obtain ⟨j, -, rfl⟩ := hv
  exact ⟨_, rfl, (hval _).1, (hval _).2⟩

/-- Evaluation of `melValue_floor` with the exact logarithm at `mel = 0`. -/
theorem melValue_floor_witness :
    (Platform.mk (fun xs => xs) Real.sqrt Real.log Real.cos Real.pi
      (fun _ => true) (fun _ x => x) (fun _ _ => 0)).logf = Real.log ∧
    -60 ≤ melValue (Platform.mk (fun xs => xs) Real.sqrt Real.log Real.cos Real.pi
      (fun _ => true) (fun _ x => x) (fun _ _ => 0)) 0 :=
  ⟨rfl, ((melValue_floor (Platform.mk (fun xs => xs) Real.sqrt Real.log Real.cos Real.pi
    (fun _ => true) (fun _ x => x) (fun _ _ => 0)) rfl).1 0).2⟩

theorem carryAfter_steady (L S : Int) (hS : 0 < S) :
    ∀ (counts : List Int) (c : Int), L - S ≤ c → c < L → (∀ n ∈ counts, 0 ≤ n) →
      L - S ≤ carryAfter L S c counts ∧ carryAfter L S c counts < L := by
  intro counts
  induction counts with
  | nil =>
    intro c hc hcL _
    exact ⟨hc, hcL⟩
  | cons n counts ih =>
    intro c hc hcL hn
    have hn0 := hn n (List.mem_cons_self _ _)
    have hnext := nextAudioBufferIndex_of_nonneg L S n c hS (by omega)
    have h1 := Int.emod_nonneg (n + c - (L - S)) hS.ne'
    have h2 := Int.emod_lt_of_pos (n + c - (L - S)) hS
    exact ih (nextAudioBufferIndex L S n c) (by omega) (by omega)
      (fun k hk => hn k (List.mem_cons_of_mem _ hk))

/-- C19 (steady-state carry).  For `0 < S ≤ L`, `0 ≤ c < L` and
`count + c ≥ L - S`, the carry count that `write` assigns is
`(L - S) + ((count + c - (L - S)) mod S)`, which lies in `L - S ≤ · < L`; a
state returned by the write carries this value, and the write returns a state
when its frame count is at most `W`.  From this carry count on, after any
series of later writes with counts `≥ 0`, the frame count of a further write
with a count `≥ 0` is never negative. -/
theorem steady_state_carry (P : Platform F) (st : Engine F) (samples : List Int)
    (hwf : WellFormed st)
    (hS : 0 < st.frameStep) (hSL : st.frameStep ≤ st.frameLength)
    (hc0 : 0 ≤ st.audioBufferIndex) (hcL : st.audioBufferIndex < (st.frameLength : Int))
    (hge : (st.frameLength : Int) - st.frameStep ≤ samples.length + st.audioBufferIndex) :
    nextAudioBufferIndex st.frameLength st.frameStep samples.length st.audioBufferIndex =
        ((st.frameLength : Int) - st.frameStep) +
          (samples.length + st.audioBufferIndex - ((st.frameLength : Int) - st.frameStep)) %
            (st.frameStep : Int) ∧
    (st.frameLength : Int) - st.frameStep ≤
      nextAudioBufferIndex st.frameLength st.frameStep samples.length st.audioBufferIndex ∧
    nextAudioBufferIndex st.frameLength st.frameStep samples.length st.audioBufferIndex <
      (st.frameLength : Int) ∧
    (∀ st2 : Engine F, write P st samples = some st2 →
      st2.audioBufferIndex =
        ((st.frameLength : Int) - st.frameStep) +
          (samples.length + st.audioBufferIndex - ((st.frameLength : Int) - st.frameStep)) %
            (st.frameStep : Int)) ∧
    (shiftColumns st.frameLength st.frameStep samples.length st.audioBufferIndex ≤
        (st.width : Int) →
      ∃ st2 : Engine F, write P st samples = some st2) ∧
    ∀ (later : List Int) (count2 : Int), (∀ n ∈ later, 0 ≤ n) → 0 ≤ count2 →
      0 ≤ shiftColumns st.frameLength st.frameStep count2
        (carryAfter st.frameLength st.frameStep
          (nextAudioBufferIndex st.frameLength st.frameStep samples.length
            st.audioBufferIndex) later) := by
  have hSi : (0 : Int) < (st.frameStep : Int) := by exact_mod_cast hS
  have hSLi : (st.frameStep : Int) ≤ (st.frameLength : Int) := by exact_mod_cast hSL
  have hnext := nextAudioBufferIndex_of_nonneg st.frameLength st.frameStep samples.length
    st.audioBufferIndex hSi hge
  have h1 := Int.emod_nonneg
    (samples.length + st.audioBufferIndex - ((st.frameLength : Int) - st.frameStep)) hSi.ne'
  have h2 := Int.emod_lt_of_pos
    (samples.length + st.audioBufferIndex - ((st.frameLength : Int) - st.frameStep)) hSi
  have hlo : (st.frameLength : Int) - st.frameStep ≤
      nextAudioBufferIndex st.frameLength st.frameStep samples.length st.audioBufferIndex := by
    omega
  have hhi : nextAudioBufferIndex st.frameLength st.frameStep samples.length
      st.audioBufferIndex < (st.frameLength : Int) := by
    omega
  have hk0 : 0 ≤ shiftColumns st.frameLength st.frameStep samples.length
      st.audioBufferIndex := by
    rw [shiftColumns_of_nonneg _ _ _ _ hSi hge]
    exact Int.ediv_nonneg (by omega) hSi.le
  refine ⟨hnext, hlo, hhi, ?_, ?_, ?_⟩
  · intro st2 h
    obtain ⟨-, -, -, -, -, hidx, -⟩ := write_step P st st2 samples ⟨hwf, hS, hSL, hc0, hcL⟩ h
    rw [hidx, hnext]
  · intro hkW
    exact ⟨_, write_eq_some P st samples hwf hS hc0 hcL.le hk0 hkW (by omega) hhi.le⟩
  · intro later count2 hlater hcount2
    obtain ⟨hc1, -⟩ := carryAfter_steady st.frameLength st.frameStep hSi later _ hlo hhi hlater
    rw [shiftColumns_of_nonneg _ _ _ _ hSi (by omega)]
    exact Int.ediv_nonneg (by omega) hSi.le

/-- Evaluation of `steady_state_carry` on `sampleEngine` with two new samples:
the carry count becomes `1 = L - S`. -/
theorem steady_state_carry_witness :
    WellFormed sampleEngine ∧
    0 < sampleEngine.frameStep ∧ sampleEngine.frameStep ≤ sampleEngine.frameLength ∧
    0 ≤ sampleEngine.audioBufferIndex ∧
    sampleEngine.audioBufferIndex < (sampleEngine.frameLength : Int) ∧
    (sampleEngine.frameLength : Int) - sampleEngine.frameStep ≤
      ([100, 200] : List Int).length + sampleEngine.audioBufferIndex ∧
    (sampleEngine.frameLength : Int) - sampleEngine.frameStep ≤
      nextAudioBufferIndex sampleEngine.frameLength sampleEngine.frameStep
        ([100, 200] : List Int).length sampleEngine.audioBufferIndex ∧
    0 ≤ shiftColumns sampleEngine.frameLength sampleEngine.frameStep 0
      (carryAfter sampleEngine.frameLength sampleEngine.frameStep
        (nextAudioBufferIndex sampleEngine.frameLength sampleEngine.frameStep
          ([100, 200] : List Int).length sampleEngine.audioBufferIndex) [0, 5]) := by
  have h := steady_state_carry samplePlatform sampleEngine [100, 200]
    ⟨rfl, rfl, rfl⟩ (by decide) (by decide) (by decide) (by decide) (by decide)
  exact ⟨⟨rfl, rfl, rfl⟩, by decide, by decide, by decide, by decide, by decide, h.2.1,
    h.2.2.2.2.2 [0, 5] 0 (by decide) (by decide)⟩

/-! ## Cells read by the windowing step -/

/-- The windowed input of frame `i` is computed from exactly the cells listed
by `windowReads` and `sampleReads`. -/
theorem windowedInput_eq_reads (P : Platform F) (st : Engine F) (fSamples : List F)
    (i : Nat) :
    windowedInput P st fSamples i =
      List.zipWith
        (fun a b => peek P Region.window st.window a * peek P Region.samples fSamples b)
        (windowReads st) (sampleReads st i) := by
  have hgen : ∀ l : List Nat,
      l.map (fun j => peek P Region.window st.window j *
        peek P Region.samples fSamples (i * st.frameStep + j)) =
      List.zipWith
        (fun a b => peek P Region.window st.window a * peek P Region.samples fSamples b)
        l (l.map fun j => i * st.frameStep + j) := by
    intro l
    induction l with
    | nil => rfl
    | cons a l ih => simp only [List.map_cons, List.zipWith_cons_cons, ih]
  exact hgen _

/-- When `N ≤ L`, every cell that the windowing step of a frame `i < k` reads
lies inside the window table and inside the valid samples. -/
theorem frame_reads_in_bounds (st : Engine F) (samples : List Int)
    (hwf : WellFormed st) (hS : 0 < st.frameStep)
    (hc0 : 0 ≤ st.audioBufferIndex) (hcL : st.audioBufferIndex ≤ (st.frameLength : Int))
    (hN : st.fftSize ≤ st.frameLength)
    (hge : (st.frameLength : Int) - st.frameStep ≤ samples.length + st.audioBufferIndex)
    (i : Nat)
    (hi : (i : Int) < shiftColumns st.frameLength st.frameStep samples.length
      st.audioBufferIndex) :
    (∀ a ∈ windowReads st, a < st.window.length) ∧
    ∀ b ∈ sampleReads st i, b < (workingSamples st samples).length := by
  have hSi : (0 : Int) < (st.frameStep : Int) := by exact_mod_cast hS
  have hws := length_workingSamples st samples hc0 (by rw [hwf.2.1]; exact hcL)
  rw [shiftColumns_of_nonneg _ _ _ _ hSi hge] at hi
  have hmul : ((i : Int) + 1) * st.frameStep ≤
      samples.length + st.audioBufferIndex - ((st.frameLength : Int) - st.frameStep) := by
    have h1 : (i : Int) + 1 ≤
        (samples.length + st.audioBufferIndex - ((st.frameLength : Int) - st.frameStep)) /
          (st.frameStep : Int) := by omega
    have h2 := Int.mul_le_mul_of_nonneg_right h1 hSi.le
    have h3 := Int.ediv_mul_le
      (samples.length + st.audioBufferIndex - ((st.frameLength : Int) - st.frameStep)) hSi.ne'
    exact h2.trans h3
  constructor
  · intro a ha
    rw [windowReads, List.mem_range] at ha
    rw [hwf.2.2]
    omega
  · intro b hb
    simp only [sampleReads, List.mem_map, List.mem_range] at hb
    obtain ⟨j, hj, rfl⟩ := hb
    have : ((i * st.frameStep + j : Nat) : Int) < ((workingSamples st samples).length : Int) := by
      rw [hws]
      push_cast
      have hjN : (j : Int) < (st.frameLength : Int) := by exact_mod_cast (by omega : j < st.frameLength)
      linarith
    exact_mod_cast this

/-- C20 (frame access bounds), evaluation at the failing input.  With
`L = 480`, `S = 160`, `N = 512`, a carry of `320` and `160` new samples, the
write produces one column; the windowing step of frame `0` reads the window
cell `480`, although the window table has `480` cells (`0 .. 479`), and the
sample cell `480`, although only `160 + 320 = 480` samples are valid. -/
theorem frame_reads_past_window :
    shiftColumns 480 160 160 320 = 1 ∧
    scenarioEngine.frameStep ≤ scenarioEngine.frameLength ∧
    scenarioEngine.frameLength ≤ scenarioEngine.fftSize ∧
    480 ∈ windowReads scenarioEngine ∧ scenarioEngine.window.length = 480 ∧
    480 ∈ sampleReads scenarioEngine 0 ∧ ¬ ((480 : Int) < 160 + 320) := by
  refine ⟨by decide, by decide, by decide, ?_, ?_, ?_, by decide⟩
  · rw [windowReads, List.mem_range]
    decide
  · exact List.length_replicate 480 (0 : ℚ)
  · simp only [sampleReads, List.mem_map, List.mem_range]
    exact ⟨480, by decide, by decide⟩

/-! ## Silent input -/

theorem peek_replicate (P : Platform F) (reg : Region) (n j : Nat) (x : F) (h : j < n) :
    peek P reg (List.replicate n x) j = x := by
  unfold peek
  rw [List.getElem?_eq_getElem (by rw [List.length_replicate]; exact h)]
  simp

theorem peek_append_left (P : Platform F) (reg : Region) (xs ys : List F) (j : Nat)
    (h : j < xs.length) : peek P reg (xs ++ ys) j = peek P reg xs j := by
  unfold peek
  rw [List.getElem?_append_left h]

theorem peek_drop (P : Platform F) (reg : Region) (xs : List F) (d j : Nat)
    (h : d + j < xs.length) : peek P reg (xs.drop d) j = peek P reg xs (d + j) := by
  unfold peek
  rw [List.getElem?_drop, List.getElem?_eq_getElem h]

theorem peek_mem (P : Platform F) (reg : Region) (xs : List F) (j : Nat)
    (h : j < xs.length) : peek P reg xs j ∈ xs := by
  unfold peek
  rw [List.getElem?_eq_getElem h]
  exact List.getElem_mem _

theorem foldl_add_zero (g : Nat → F) :
    ∀ (l : List Nat) (acc : F), (∀ k ∈ l, g k = 0) →
      l.foldl (fun mel k => mel + g k) acc = acc := by
  intro l
  induction l with
  | nil =>
    intro acc _
    rfl
  | cons a l ih =>
    intro acc h
    rw [List.foldl_cons, h a (List.mem_cons_self _ _), add_zero]
    exact ih acc (fun k hk => h k (List.mem_cons_of_mem _ hk))

/-- A frame whose samples are all zero has an all-zero windowed input. -/
theorem windowedInput_silent (P : Platform F) (st : Engine F) (fSamples : List F) (i : Nat)
    (hzero : ∀ j, j < st.fftSize →
      peek P Region.samples fSamples (i * st.frameStep + j) = 0) :
    windowedInput P st fSamples i = List.replicate st.fftSize 0 := by
  rw [List.eq_replicate_iff]
  constructor
  · simp [windowedInput]
  · intro b hb
    simp only [windowedInput, List.mem_map, List.mem_range] at hb
    obtain ⟨j, hj, rfl⟩ := hb
    rw [hzero j hj, mul_zero]

/-- When the transform maps the zero frame to the zero spectrum, every
magnitude bin of a zero frame is zero. -/
theorem fftMag_silent (P : Platform F) (st : Engine F)
    (hN : 2 ≤ st.fftSize)
    (hfft : P.rfft (List.replicate st.fftSize 0) = List.replicate st.fftSize 0)
    (hsqrt : P.sqrt 0 = 0) :
    fftMag P st (List.replicate st.fftSize 0) = List.replicate (fftMagSize st) 0 := by
  rw [List.eq_replicate_iff]
  constructor
  · simp [fftMag]
  · intro b hb
    simp only [fftMag, List.mem_map, List.mem_range, fftMagSize] at hb
    obtain ⟨k, hk, rfl⟩ := hb
    rw [hfft]
    split_ifs with h1 h2
    · rw [peek_replicate P _ _ _ _ (by omega), abs_zero]
    · rw [peek_replicate P _ _ _ _ (by omega), abs_zero]
    · rw [peek_replicate P _ _ _ _ (by omega : 2 * k < st.fftSize),
        peek_replicate P _ _ _ _ (by omega : 2 * k + 1 < st.fftSize)]
      simp [hsqrt]

theorem melDot_silent (P : Platform F) (st : Engine F) (j : Nat) :
    melDot P st (List.replicate (fftMagSize st) 0) j = 0 := by
  unfold melDot
  apply foldl_add_zero
  intro k hk
  rw [peek_replicate P _ _ _ _ (List.mem_range.1 hk), mul_zero]

/-- The row of a frame whose samples are all zero holds the value of zero
power in every cell. -/
theorem melRow_silent (P : Platform F) (st : Engine F) (fSamples : List F) (i : Nat)
    (hN : 2 ≤ st.fftSize)
    (hfft : P.rfft (List.replicate st.fftSize 0) = List.replicate st.fftSize 0)
    (hsqrt : P.sqrt 0 = 0)
    (hzero : ∀ j, j < st.fftSize →
      peek P Region.samples fSamples (i * st.frameStep + j) = 0) :
    melRow P st fSamples i = List.replicate st.numMelBins (melValue P 0) := by
  rw [List.eq_replicate_iff]
  constructor
  · simp [melRow]
  · intro b hb
    simp only [melRow, List.mem_map, List.mem_range] at hb
    obtain ⟨j, -, rfl⟩ := hb
    rw [windowedInput_silent P st fSamples i hzero, fftMag_silent P st hN hfft hsqrt,
      melDot_silent]

/-- With the exact logarithm the value of zero power is `-60`. -/
theorem melValue_zero_real (P : Platform ℝ) (hlog : P.logf = Real.log) :
    melValue P 0 = -60 := by
  have h10 : (0 : ℝ) < Real.log 10 := Real.log_pos (by norm_num)
  have hlt : (0 : ℝ) * 0 < 1 / 1000000 := by norm_num
  simp only [melValue, hlog, if_pos hlt, log_millionth]
  field_simp
  ring

theorem flatten_replicate_rows (n M : Nat) (x : F) :
    (List.replicate n (List.replicate M x)).flatten = List.replicate (n * M) x := by
  induction n with
  | zero => simp
  | succ n ih =>
    rw [List.replicate_succ, List.flatten_cons, ih, ← List.replicate_add]
    congr 1
    ring

/-- A write in which the carried samples and the new samples are all zero, with
`N ≤ L` and at most `W` columns: every new row holds the value of zero power in
every cell. -/
theorem write_silent (P : Platform F) (st : Engine F) (samples : List Int)
    (hr : Ready st) (hN : st.fftSize ≤ st.frameLength) (hN2 : 2 ≤ st.fftSize)
    (hfft : P.rfft (List.replicate st.fftSize 0) = List.replicate st.fftSize 0)
    (hsqrt : P.sqrt 0 = 0)
    (hge : (st.frameLength : Int) - st.frameStep ≤ samples.length + st.audioBufferIndex)
    (hkW : shiftColumns st.frameLength st.frameStep samples.length st.audioBufferIndex
      ≤ (st.width : Int))
    (hs : ∀ x ∈ samples, x = 0)
    (hcar : ∀ x ∈ st.audioBuffer.take st.audioBufferIndex.toNat, x = 0) :
    (∀ x ∈ workingSamples st samples, x = 0) ∧
    write P st samples = some
      { st with
        data :=
          st.data.drop ((shiftColumns st.frameLength st.frameStep samples.length
              st.audioBufferIndex).toNat * st.numMelBins) ++
            List.replicate ((shiftColumns st.frameLength st.frameStep samples.length
              st.audioBufferIndex).toNat * st.numMelBins) (melValue P 0)
        audioBuffer :=
          (workingSamples st samples).drop
              ((shiftColumns st.frameLength st.frameStep samples.length
                st.audioBufferIndex).toNat * st.frameStep) ++
            st.audioBuffer.drop
              (nextAudioBufferIndex st.frameLength st.frameStep samples.length
                st.audioBufferIndex).toNat
        audioBufferIndex :=
          nextAudioBufferIndex st.frameLength st.frameStep samples.length
            st.audioBufferIndex } := by
  obtain ⟨hwf, hS, hSL, hc0, hcL⟩ := hr
  have hSi : (0 : Int) < (st.frameStep : Int) := by exact_mod_cast hS
  have hSLi : (st.frameStep : Int) ≤ (st.frameLength : Int) := by exact_mod_cast hSL
  have hb := nextAudioBufferIndex_bounds st.frameLength st.frameStep samples.length
    st.audioBufferIndex hSi hSLi hc0 (by omega)
  have hk0 : 0 ≤ shiftColumns st.frameLength st.frameStep samples.length
      st.audioBufferIndex := by
    rw [shiftColumns_of_nonneg _ _ _ _ hSi hge]
    exact Int.ediv_nonneg (by omega) hSi.le
  have hws0 : ∀ x ∈ workingSamples st samples, x = 0 := by
    intro x hx
    rcases List.mem_append.1 hx with h | h
    · exact hcar x h
    · obtain ⟨y, hy, rfl⟩ := List.mem_map.1 h
      rw [hs y hy]
      simp [toFloat]
  have hrows : (List.range (shiftColumns st.frameLength st.frameStep samples.length
      st.audioBufferIndex).toNat).map (melRow P st (workingSamples st samples)) =
      List.replicate (shiftColumns st.frameLength st.frameStep samples.length
        st.audioBufferIndex).toNat (List.replicate st.numMelBins (melValue P 0)) := by
    rw [List.eq_replicate_iff]
    constructor
    · simp
    · intro row hrow
      obtain ⟨i, hi, rfl⟩ := List.mem_map.1 hrow
      have hik : (i : Int) < shiftColumns st.frameLength st.frameStep samples.length
          st.audioBufferIndex := Int.lt_toNat.1 (List.mem_range.1 hi)
      obtain ⟨-, hin⟩ := frame_reads_in_bounds st samples hwf hS hc0 hcL.le hN hge i hik
      apply melRow_silent P st _ i hN2 hfft hsqrt
      intro j hj
      apply hws0
      apply peek_mem
      apply hin
      simp only [sampleReads, List.mem_map, List.mem_range]
      exact ⟨j, hj, rfl⟩
  refine ⟨hws0, ?_⟩
  rw [write_eq_some P st samples hwf hS hc0 hcL.le hk0 hkW hb.1 hb.2.le, hrows,
    flatten_replicate_rows]

/-- Silent input when every cell read is zero.  With the exact logarithm, a
square root with `sqrt 0 = 0` and a transform that maps the zero frame to the
zero spectrum: for every geometry with `N ≥ 2` and every weight matrix, a frame
whose `N` cells read are all zero produces a row whose `M` cells all equal `10 * log10(1e-6) = -60`; and
in every write with `N ≤ L` whose carried and new samples are all zero (the
example scenario feeds zero samples) and which produces at most `W` columns,
every produced row has `-60` in every cell. -/
theorem silent_rows (P : Platform ℝ) (hlog : P.logf = Real.log) (hsqrt : P.sqrt 0 = 0) :
    10 * Real.logb 10 (1 / 1000000) = -60 ∧
    (∀ (st : Engine ℝ) (fSamples : List ℝ) (i : Nat),
      2 ≤ st.fftSize →
      P.rfft (List.replicate st.fftSize 0) = List.replicate st.fftSize 0 →
      (∀ j, j < st.fftSize → peek P Region.samples fSamples (i * st.frameStep + j) = 0) →
      melRow P st fSamples i = List.replicate st.numMelBins (-60)) ∧
    ∀ (st : Engine ℝ) (samples : List Int),
      Ready st → st.fftSize ≤ st.frameLength → 2 ≤ st.fftSize →
      P.rfft (List.replicate st.fftSize 0) = List.replicate st.fftSize 0 →
      (st.frameLength : Int) - st.frameStep ≤ samples.length + st.audioBufferIndex →
      shiftColumns st.frameLength st.frameStep samples.length st.audioBufferIndex
        ≤ (st.width : Int) →
      (∀ x ∈ samples, x = 0) →
      (∀ x ∈ st.audioBuffer.take st.audioBufferIndex.toNat, x = 0) →
      ∃ st2 : Engine ℝ, write P st samples = some st2 ∧
        st2.data =
          st.data.drop ((shiftColumns st.frameLength st.frameStep samples.length
              st.audioBufferIndex).toNat * st.numMelBins) ++
            List.replicate ((shiftColumns st.frameLength st.frameStep samples.length
              st.audioBufferIndex).toNat * st.numMelBins) (-60) := by
  have hv := melValue_zero_real P hlog
  refine ⟨?_, ?_, ?_⟩
  · have h10 : (0 : ℝ) < Real.log 10 := Real.log_pos (by norm_num)
    rw [Real.logb, log_millionth]
    field_simp
    ring
  · intro st fSamples i hN2 hfft hzero
    rw [melRow_silent P st fSamples i hN2 hfft hsqrt hzero, hv]
  · intro st samples hr hN hN2 hfft hge hkW hs hcar
    obtain ⟨-, hw⟩ := write_silent P st samples hr hN hN2 hfft hsqrt hge hkW hs hcar
    rw [hv] at hw
    exact ⟨_, hw, rfl⟩

/-- Evaluation of `silent_rows` with the exact logarithm and square root on
`silentEngine` (`M = 2`, `N = 2`, `L = 3`, `S = 2`, carry `1`): the row of an
all-zero frame, and a write of two zero samples; and on the example scenario in
the steady state (`L = 480`, `S = 160`, `M = 10`, `N = 480`): a write of 160
zero samples. -/
theorem silent_rows_witness :
    (Platform.mk (fun xs => xs) Real.sqrt Real.log Real.cos Real.pi
      (fun _ => true) (fun _ x => x) (fun _ _ => 0)).logf = Real.log ∧
    (Platform.mk (fun xs => xs) Real.sqrt Real.log Real.cos Real.pi
      (fun _ => true) (fun _ x => x) (fun _ _ => 0)).sqrt 0 = 0 ∧
    melRow (Platform.mk (fun xs => xs) Real.sqrt Real.log Real.cos Real.pi
      (fun _ => true) (fun _ x => x) (fun _ _ => 0)) silentEngine [0, 0, 0] 0 =
      List.replicate silentEngine.numMelBins (-60) ∧
    (∃ st2 : Engine ℝ,
      write (Platform.mk (fun xs => xs) Real.sqrt Real.log Real.cos Real.pi
        (fun _ => true) (fun _ x => x) (fun _ _ => 0)) silentEngine [0, 0] = some st2 ∧
      st2.data =
        silentEngine.data.drop ((shiftColumns silentEngine.frameLength silentEngine.frameStep
            ([0, 0] : List Int).length silentEngine.audioBufferIndex).toNat *
              silentEngine.numMelBins) ++
          List.replicate ((shiftColumns silentEngine.frameLength silentEngine.frameStep
            ([0, 0] : List Int).length silentEngine.audioBufferIndex).toNat *
              silentEngine.numMelBins) (-60)) ∧
    ∃ st2 : Engine ℝ,
      write (Platform.mk (fun xs => xs) Real.sqrt Real.log Real.cos Real.pi
        (fun _ => true) (fun _ x => x) (fun _ _ => 0)) steadyScenarioReal
        (List.replicate 160 0) = some st2 ∧
      st2.data =
        steadyScenarioReal.data.drop
            ((shiftColumns steadyScenarioReal.frameLength steadyScenarioReal.frameStep
              (List.replicate 160 (0 : Int)).length
              steadyScenarioReal.audioBufferIndex).toNat * steadyScenarioReal.numMelBins) ++
          List.replicate
            ((shiftColumns steadyScenarioReal.frameLength steadyScenarioReal.frameStep
              (List.replicate 160 (0 : Int)).length
              steadyScenarioReal.audioBufferIndex).toNat * steadyScenarioReal.numMelBins)
            (-60) := by
  have h := silent_rows (Platform.mk (fun xs => xs) Real.sqrt Real.log Real.cos Real.pi
    (fun _ => true) (fun _ x => x) (fun _ _ => 0)) rfl Real.sqrt_zero
  have hrS : Ready steadyScenarioReal :=
    ⟨⟨List.length_replicate 200 (0 : ℝ), List.length_replicate 480 (0 : ℝ),
      List.length_replicate 480 (0 : ℝ)⟩, by decide, by decide, by decide, by decide⟩
  have hlen : (List.replicate 160 (0 : Int)).length = 160 := List.length_replicate 160 0
  refine ⟨rfl, Real.sqrt_zero, h.2.1 silentEngine [0, 0, 0] 0 (by decide) rfl ?_,
    h.2.2 silentEngine [0, 0] ⟨⟨rfl, rfl, rfl⟩, by decide, by decide, by decide, by decide⟩
      (by decide) (by decide) rfl (by decide) (by decide) ?_ ?_,
    h.2.2 steadyScenarioReal (List.replicate 160 0) hrS (by decide) (by decide) rfl
      (by rw [hlen]; decide) (by rw [hlen]; decide)
      (fun x hx => List.eq_of_mem_replicate hx)
      (fun x hx => List.eq_of_mem_replicate (List.mem_of_mem_take hx))⟩
  · intro j hj
    have hj2 : j < 2 := hj
    interval_cases j <;> simp [peek, silentEngine]
  · intro x hx
    simp only [List.mem_cons, List.mem_singleton, List.not_mem_nil, or_false, or_self] at hx
    exact hx
  · intro x hx
    have h1 : silentEngine.audioBuffer.take silentEngine.audioBufferIndex.toNat = [0] := rfl
    rw [h1] at hx
    exact List.mem_singleton.1 hx

/-! ## The example scenario -/

/-- One write of `S` zero samples in the steady state with zero carried
samples: one row of zero power is appended, and the state is again a steady
state with zero carried samples. -/
theorem steady_silent_step (P : Platform F) (st : Engine F)
    (hr : Ready st) (hN : st.fftSize ≤ st.frameLength) (hN2 : 2 ≤ st.fftSize)
    (hfft : P.rfft (List.replicate st.fftSize 0) = List.replicate st.fftSize 0)
    (hsqrt : P.sqrt 0 = 0) (hW : 0 < st.width)
    (hidx : st.audioBufferIndex = (st.frameLength : Int) - st.frameStep)
    (hcar : ∀ x ∈ st.audioBuffer.take st.audioBufferIndex.toNat, x = 0) :
    shiftColumns st.frameLength st.frameStep
      ((List.replicate st.frameStep (0 : Int)).length : Nat) st.audioBufferIndex = 1 ∧
    ∃ a : List F,
      write P st (List.replicate st.frameStep 0) = some
        { st with
          data := st.data.drop st.numMelBins ++ List.replicate st.numMelBins (melValue P 0)
          audioBuffer := a
          audioBufferIndex := st.audioBufferIndex } ∧
      Ready { st with
          data := st.data.drop st.numMelBins ++ List.replicate st.numMelBins (melValue P 0)
          audioBuffer := a
          audioBufferIndex := st.audioBufferIndex } ∧
      ∀ x ∈ a.take st.audioBufferIndex.toNat, x = 0 := by
  have hr0 := hr
  obtain ⟨hwf, hS, hSL, hc0, hcL⟩ := hr
  have hSi : (0 : Int) < (st.frameStep : Int) := by exact_mod_cast hS
  have hlen : ((List.replicate st.frameStep (0 : Int)).length : Int) = st.frameStep := by
    rw [List.length_replicate]
  have hk : shiftColumns st.frameLength st.frameStep
      ((List.replicate st.frameStep (0 : Int)).length : Nat) st.audioBufferIndex = 1 := by
    rw [hlen]
    unfold shiftColumns
    rw [hidx]
    have e : (st.frameStep : Int) + ((st.frameLength : Int) - st.frameStep) -
        ((st.frameLength : Int) - st.frameStep) = st.frameStep := by ring
    rw [e]
    exact Int.tdiv_self hSi.ne'
  have hnext : nextAudioBufferIndex st.frameLength st.frameStep
      ((List.replicate st.frameStep (0 : Int)).length : Nat) st.audioBufferIndex =
      st.audioBufferIndex := by
    unfold nextAudioBufferIndex
    rw [hk, hlen]
    ring
  obtain ⟨hws0, hw⟩ := write_silent P st (List.replicate st.frameStep 0) hr0 hN hN2 hfft
    hsqrt (by rw [hlen]; omega) (by rw [hk]; exact_mod_cast hW)
    (fun x hx => List.eq_of_mem_replicate hx) hcar
  rw [hk, hnext] at hw
  simp only [Int.toNat_one, Nat.one_mul] at hw
  refine ⟨hk, _, hw, ?_, ?_⟩
  · exact (write_step P st _ _ hr0 hw).1
  · intro x hx
    have hwsl := length_workingSamples st (List.replicate st.frameStep 0) hc0
      (by rw [hwf.2.1]; exact hcL.le)
    have hdl : ((workingSamples st (List.replicate st.frameStep 0)).drop
        st.frameStep).length = st.audioBufferIndex.toNat := by
      rw [List.length_drop]
      rw [List.length_replicate] at hwsl
      omega
    rw [List.take_left' hdl] at hx
    exact hws0 x (List.mem_of_mem_drop hx)

/-- A series of `j ≤ W` writes of `S` zero samples in the steady state with
zero carried samples: the `j` newest rows hold the value of zero power, the
older rows have moved `j` places toward the oldest end. -/
theorem steady_silent_writes (P : Platform F) (hsqrt : P.sqrt 0 = 0) :
    ∀ (j : Nat) (st : Engine F), Ready st → st.fftSize ≤ st.frameLength → 2 ≤ st.fftSize →
      P.rfft (List.replicate st.fftSize 0) = List.replicate st.fftSize 0 →
      st.audioBufferIndex = (st.frameLength : Int) - st.frameStep →
      (∀ x ∈ st.audioBuffer.take st.audioBufferIndex.toNat, x = 0) →
      j ≤ st.width →
      ∃ a : List F,
        writeAll P st (List.replicate j (List.replicate st.frameStep 0)) = some
          ({ st with
              data := st.data.drop (j * st.numMelBins) ++
                List.replicate (j * st.numMelBins) (melValue P 0)
              audioBuffer := a
              audioBufferIndex := st.audioBufferIndex }, j) := by
  intro j
  induction j with
  | zero =>
    intro st _ _ _ _ _ _ _
    refine ⟨st.audioBuffer, ?_⟩
    simp [writeAll]
  | succ j ih =>
    intro st hr hN hN2 hfft hidx hcar hj
    obtain ⟨hk, a1, hw, hr2, hcar2⟩ :=
      steady_silent_step P st hr hN hN2 hfft hsqrt (by omega) hidx hcar
    obtain ⟨a2, h2⟩ := ih _ hr2 hN hN2 hfft hidx hcar2 (Nat.le_of_succ_le hj)
    refine ⟨a2, ?_⟩
    have hlenA : (st.data.drop st.numMelBins).length =
        (st.width - 1) * st.numMelBins := by
      rw [List.length_drop, hr.1.1, Nat.sub_mul, Nat.one_mul]
    have hjle : j * st.numMelBins ≤ (st.data.drop st.numMelBins).length := by
      rw [hlenA]
      exact Nat.mul_le_mul_right _ (by omega)
    have hdata : (st.data.drop st.numMelBins ++
        List.replicate st.numMelBins (melValue P 0)).drop (j * st.numMelBins) ++
          List.replicate (j * st.numMelBins) (melValue P 0) =
        st.data.drop ((j + 1) * st.numMelBins) ++
          List.replicate ((j + 1) * st.numMelBins) (melValue P 0) := by
      rw [List.drop_append_of_le_length hjle, List.drop_drop, List.append_assoc,
        ← List.replicate_add]
      have e1 : st.numMelBins + j * st.numMelBins = (j + 1) * st.numMelBins := by ring
      rw [e1]
    rw [List.replicate_succ]
    simp only [writeAll, hw, Option.some_bind, hk]
    have h2b : writeAll P
        { st with
          data := st.data.drop st.numMelBins ++ List.replicate st.numMelBins (melValue P 0)
          audioBuffer := a1
          audioBufferIndex := st.audioBufferIndex }
        (List.replicate j (List.replicate st.frameStep 0)) = _ := h2
    rw [h2b]
    simp only [Option.map_some', Option.some.injEq, Prod.mk.injEq]
    refine ⟨?_, by simp [Nat.add_comm]⟩
    simp only [hdata]

/-- Ten writes of 160 zero samples on the example scenario in the steady state,
with the exact logarithm and square root: the ten oldest rows keep the value
`0` and the ten newest rows hold `-60`, and the read-out with output scale `1`
and zero-point `0` holds `0` in its first element and `-60` in its last. -/
theorem steady_ten_writes_not_uniform :
    ∃ (st3 : Engine ℝ) (out : List Int),
      writeAll (Platform.mk (fun xs => xs) Real.sqrt Real.log Real.cos Real.pi
          (fun _ => true) (fun _ x => x) (fun _ _ => 0)) steadyScenarioReal
        (List.replicate 10 (List.replicate 160 0)) = some (st3, 10) ∧
      st3.data = List.replicate 100 0 ++ List.replicate 100 (-60) ∧
      read (Platform.mk (fun xs => xs) Real.sqrt Real.log Real.cos Real.pi
          (fun _ => true) (fun _ x => x) (fun _ _ => 0)) st3 200 = some out ∧
      out[0]? = some 0 ∧ out[199]? = some (-60) := by
  have hr : Ready steadyScenarioReal :=
    ⟨⟨List.length_replicate 200 (0 : ℝ), List.length_replicate 480 (0 : ℝ),
      List.length_replicate 480 (0 : ℝ)⟩, by decide, by decide, by decide, by decide⟩
  have hcar : ∀ x ∈ steadyScenarioReal.audioBuffer.take
      steadyScenarioReal.audioBufferIndex.toNat, x = 0 :=
    fun x hx => List.eq_of_mem_replicate (List.mem_of_mem_take hx)
  obtain ⟨a, h⟩ := steady_silent_writes (Platform.mk (fun xs => xs) Real.sqrt Real.log
    Real.cos Real.pi (fun _ => true) (fun _ x => x) (fun _ _ => 0)) Real.sqrt_zero 10
    steadyScenarioReal hr (by decide) (by decide) rfl (by decide) hcar (by decide)
  rw [melValue_zero_real _ rfl] at h
  have hdata : steadyScenarioReal.data.drop (10 * steadyScenarioReal.numMelBins) ++
      List.replicate (10 * steadyScenarioReal.numMelBins) (-60 : ℝ) =
      List.replicate 100 0 ++ List.replicate 100 (-60) := by
    show (List.replicate 200 (0 : ℝ)).drop 100 ++ List.replicate 100 (-60 : ℝ) = _
    rw [List.drop_replicate]
  rw [hdata] at h
  obtain ⟨hr3, -⟩ := writeAll_spec _ _ steadyScenarioReal _ _ hr h
  obtain ⟨maxDb, hmem, hub, hread⟩ := read_eq_some (Platform.mk (fun xs => xs) Real.sqrt
    Real.log Real.cos Real.pi (fun _ => true) (fun _ x => x) (fun _ _ => 0)) _ 200 hr3.1
    (by decide : 0 < steadyScenarioReal.width * steadyScenarioReal.numMelBins)
  have hmax : maxDb = 0 := by
    have h0 : (0 : ℝ) ≤ maxDb :=
      hub 0 (List.mem_append_left _ (List.mem_replicate.2 ⟨(by decide : (100 : Nat) ≠ 0), rfl⟩))
    rcases List.mem_append.1 hmem with hm | hm
    · exact List.eq_of_mem_replicate hm
    · have := List.eq_of_mem_replicate hm
      linarith
  have hp0 : peek (Platform.mk (fun xs => xs) Real.sqrt Real.log Real.cos Real.pi
      (fun _ => true) (fun _ x => x) (fun _ _ => 0)) Region.data
      (List.replicate 100 (0 : ℝ) ++ List.replicate 100 (-60)) 0 = 0 := by
    rw [peek_append_left _ _ _ _ _ (by rw [List.length_replicate]; decide)]
    exact peek_replicate _ _ _ _ _ (by decide)
  have hp199 : peek (Platform.mk (fun xs => xs) Real.sqrt Real.log Real.cos Real.pi
      (fun _ => true) (fun _ x => x) (fun _ _ => 0)) Region.data
      (List.replicate 100 (0 : ℝ) ++ List.replicate 100 (-60)) 199 = -60 := by
    unfold peek
    rw [List.getElem?_append_right (by rw [List.length_replicate]; decide),
      List.length_replicate, List.getElem?_replicate]
    simp
  have hq0 : quantize (1 : ℝ) 0 (clipBelow ((0 : ℝ) - ((80 : Int) : ℝ)) 0) = 0 := by
    simp only [clipBelow, quantize, toInt32, ssat8]
    norm_num
  have hq199 : quantize (1 : ℝ) 0 (clipBelow ((0 : ℝ) - ((80 : Int) : ℝ)) (-60)) = -60 := by
    have hc : ⌈(-60 : ℝ)⌉ = -60 := by
      have : ((-60 : Int) : ℝ) = -60 := by norm_num
      rw [← this, Int.ceil_intCast]
    simp only [clipBelow, quantize, toInt32, ssat8]
    norm_num [hc]
  rw [hmax] at hread
  have hget : ∀ (f : Nat → Int) (i : Nat), i < 200 →
      ((List.range 200).map f)[i]? = some (f i) := by
    intro f i hi
    rw [List.getElem?_map, List.getElem?_range hi]
    rfl
  refine ⟨_, _, h, rfl, hread, ?_, ?_⟩
  · rw [hget _ 0 (by decide)]
    show some (quantize (1 : ℝ) 0 (clipBelow ((0 : ℝ) - ((80 : Int) : ℝ))
      (peek _ Region.data (List.replicate 100 (0 : ℝ) ++ List.replicate 100 (-60)) 0))) = _
    rw [hp0, hq0]
  · rw [hget _ 199 (by decide)]
    show some (quantize (1 : ℝ) 0 (clipBelow ((0 : ℝ) - ((80 : Int) : ℝ))
      (peek _ Region.data (List.replicate 100 (0 : ℝ) ++ List.replicate 100 (-60)) 199))) = _
    rw [hp199, hq199]

/-- C13, counterexample.  On the engine of the example scenario with an
all-zero spectrogram and an empty carry, the series of ten writes of 160 zero
samples has no defined result: the first write has frame count `-1`.  Started
instead in the steady state (carry `320`, `N = 480`, exact logarithm, output
scale `1`, zero-point `0`), the ten writes return, and the read-out of the 200
elements holds `0` in its first element and `-60` in its last: it is not
uniform. -/
theorem scenario_from_empty_carry :
    shiftColumns scenarioEngine.frameLength scenarioEngine.frameStep 160
      scenarioEngine.audioBufferIndex = -1 ∧
    writeAll samplePlatform scenarioEngine (List.replicate 10 (List.replicate 160 0)) =
      none ∧
    ∃ (st3 : Engine ℝ) (out : List Int),
      writeAll (Platform.mk (fun xs => xs) Real.sqrt Real.log Real.cos Real.pi
          (fun _ => true) (fun _ x => x) (fun _ _ => 0)) steadyScenarioReal
        (List.replicate 10 (List.replicate 160 0)) = some (st3, 10) ∧
      st3.data = List.replicate 100 0 ++ List.replicate 100 (-60) ∧
      read (Platform.mk (fun xs => xs) Real.sqrt Real.log Real.cos Real.pi
          (fun _ => true) (fun _ x => x) (fun _ _ => 0)) st3 200 = some out ∧
      out[0]? = some 0 ∧ out[199]? = some (-60) := by
  refine ⟨by decide, ?_, steady_ten_writes_not_uniform⟩
  have hw : write samplePlatform scenarioEngine (List.replicate 160 0) = none := by
    apply write_eq_none_of_shift_neg
    simp only [scenarioEngine, List.length_replicate]
    decide
  rw [List.replicate_succ]
  simp only [writeAll, hw, Option.none_bind]

/-- C13 as amended (example scenario read-out).  For an engine in the steady
state (carry count `L - S`, carried samples zero) with `2 ≤ N ≤ L`,
`outputScale > 0`, a square root with `sqrt 0 = 0` and a transform that maps
the zero frame to the zero spectrum: after `j ≤ W` successive writes of `S`
zero samples the `j` newest rows hold the value of zero power
`10 * logf(1e-6) / logf(10)` in every cell, and after `W` such writes all
`W * M` cells hold that value and the full read-out is uniform.  With `L = 480`,
`S = 160`, `W = 20`, `M = 10` this is the read-out after twenty writes of 160
zero samples. -/
theorem steady_silent_readout (P : Platform F) (st : Engine F)
    (hr : Ready st) (hN : st.fftSize ≤ st.frameLength) (hN2 : 2 ≤ st.fftSize)
    (hfft : P.rfft (List.replicate st.fftSize 0) = List.replicate st.fftSize 0)
    (hsqrt : P.sqrt 0 = 0) (hW : 0 < st.width) (hM : 0 < st.numMelBins)
    (_hs : 0 < st.outputScale)
    (hidx : st.audioBufferIndex = (st.frameLength : Int) - st.frameStep)
    (hcar : ∀ x ∈ st.audioBuffer.take st.audioBufferIndex.toNat, x = 0) :
    (∀ j : Nat, j ≤ st.width →
      ∃ st3 : Engine F,
        writeAll P st (List.replicate j (List.replicate st.frameStep 0)) = some (st3, j) ∧
        st3.data = st.data.drop (j * st.numMelBins) ++
          List.replicate (j * st.numMelBins) (melValue P 0)) ∧
    ∃ st3 : Engine F,
      writeAll P st (List.replicate st.width (List.replicate st.frameStep 0)) =
        some (st3, st.width) ∧
      st3.data = List.replicate (st.width * st.numMelBins) (melValue P 0) ∧
      read P st3 (st.width * st.numMelBins) =
        some (List.replicate (st.width * st.numMelBins)
          (quantize st.outputScale st.outputZeroPoint
            (clipBelow (melValue P 0 - (st.topDb : F)) (melValue P 0)))) := by
  constructor
  · intro j hj
    obtain ⟨a, h⟩ := steady_silent_writes P hsqrt j st hr hN hN2 hfft hidx hcar hj
    exact ⟨_, h, rfl⟩
  · obtain ⟨a, h⟩ := steady_silent_writes P hsqrt st.width st hr hN hN2 hfft hidx hcar le_rfl
    have hdrop : st.data.drop (st.width * st.numMelBins) = [] :=
      List.drop_of_length_le hr.1.1.le
    rw [hdrop, List.nil_append] at h
    refine ⟨_, h, rfl, ?_⟩
    obtain ⟨hr3, hW3, hM3, -⟩ := writeAll_spec P _ st _ _ hr h
    obtain ⟨maxDb, hmem, -, hread⟩ := read_eq_some P _ (st.width * st.numMelBins) hr3.1
      (Nat.mul_pos hW hM)
    have hmax : maxDb = melValue P 0 := List.eq_of_mem_replicate hmem
    rw [hread, hmax]
    congr 1
    rw [List.eq_replicate_iff]
    constructor
    · simp
    · intro b hb
      obtain ⟨i, hi, rfl⟩ := List.mem_map.1 hb
      have hp : peek P Region.data
          (List.replicate (st.width * st.numMelBins) (melValue P 0)) i = melValue P 0 :=
        peek_replicate P _ _ _ _ (List.mem_range.1 hi)
      simp only [hp]

/-- Evaluation of `steady_silent_readout` on the example scenario in the steady
state (`L = 480`, `S = 160`, `W = 20`, `M = 10`, `N = 480`): after twenty
writes of 160 zero samples the read-out of the 200 elements is uniform. -/
theorem steady_silent_readout_witness :
    Ready steadyScenarioEngine ∧
    steadyScenarioEngine.fftSize ≤ steadyScenarioEngine.frameLength ∧
    2 ≤ steadyScenarioEngine.fftSize ∧
    samplePlatform.rfft (List.replicate steadyScenarioEngine.fftSize 0) =
      List.replicate steadyScenarioEngine.fftSize 0 ∧
    samplePlatform.sqrt 0 = 0 ∧
    0 < steadyScenarioEngine.width ∧ 0 < steadyScenarioEngine.numMelBins ∧
    0 < steadyScenarioEngine.outputScale ∧
    steadyScenarioEngine.audioBufferIndex =
      (steadyScenarioEngine.frameLength : Int) - steadyScenarioEngine.frameStep ∧
    (∀ x ∈ steadyScenarioEngine.audioBuffer.take steadyScenarioEngine.audioBufferIndex.toNat,
      x = 0) ∧
    ∃ st3 : Engine ℚ,
      writeAll samplePlatform steadyScenarioEngine
          (List.replicate steadyScenarioEngine.width
            (List.replicate steadyScenarioEngine.frameStep 0)) =
        some (st3, steadyScenarioEngine.width) ∧
      st3.data = List.replicate
        (steadyScenarioEngine.width * steadyScenarioEngine.numMelBins)
        (melValue samplePlatform 0) ∧
      read samplePlatform st3
          (steadyScenarioEngine.width * steadyScenarioEngine.numMelBins) =
        some (List.replicate (steadyScenarioEngine.width * steadyScenarioEngine.numMelBins)
          (quantize steadyScenarioEngine.outputScale steadyScenarioEngine.outputZeroPoint
            (clipBelow (melValue samplePlatform 0 - (steadyScenarioEngine.topDb : ℚ))
              (melValue samplePlatform 0)))) := by
  have hr : Ready steadyScenarioEngine :=
    ⟨⟨List.length_replicate 200 (0 : ℚ), List.length_replicate 480 (0 : ℚ),
      List.length_replicate 480 (0 : ℚ)⟩, by decide, by decide, by decide, by decide⟩
  have hcar : ∀ x ∈ steadyScenarioEngine.audioBuffer.take
      steadyScenarioEngine.audioBufferIndex.toNat, x = 0 :=
    fun x hx => List.eq_of_mem_replicate (List.mem_of_mem_take hx)
  have hs : 0 < steadyScenarioEngine.outputScale := by
    show (0 : ℚ) < 1
    norm_num
  exact ⟨hr, by decide, by decide, rfl, rfl, by decide, by decide, hs, by decide, hcar,
    (steady_silent_readout samplePlatform steadyScenarioEngine hr (by decide) (by decide)
      rfl rfl (by decide) (by decide) hs (by decide) hcar).2⟩

/-! ## Independence of the chunking -/

/-- The row of a frame depends on the engine only through the geometry, the
window and the weight matrix. -/
theorem melRow_congr_engine (P : Platform F) (st st2 : Engine F) (fSamples : List F) (i : Nat)
    (h1 : st2.numMelBins = st.numMelBins) (h2 : st2.fftSize = st.fftSize)
    (h3 : st2.frameStep = st.frameStep) (h4 : st2.window = st.window)
    (h5 : st2.weightMatrix = st.weightMatrix) :
    melRow P st2 fSamples i = melRow P st fSamples i := by
  simp only [melRow, melDot, fftMag, windowedInput, fftMagSize, h1, h2, h3, h4, h5]

/-- The row of a frame depends on the samples only through the cells that the
windowing step reads. -/
theorem melRow_congr_samples (P : Platform F) (st : Engine F) (fs1 fs2 : List F)
    (i1 i2 : Nat)
    (h : ∀ j, j < st.fftSize →
      peek P Region.samples fs1 (i1 * st.frameStep + j) =
        peek P Region.samples fs2 (i2 * st.frameStep + j)) :
    melRow P st fs1 i1 = melRow P st fs2 i2 := by
  have hw : windowedInput P st fs1 i1 = windowedInput P st fs2 i2 := by
    unfold windowedInput
    apply List.map_congr_left
    intro j hj
    rw [h j (List.mem_range.1 hj)]
  simp only [melRow, hw]

/-- A state that `write` returns from a ready state is given by the closed form
of `write_eq_some`. -/
theorem write_some_eq (P : Platform F) (st st2 : Engine F) (samples : List Int)
    (hr : Ready st) (h : write P st samples = some st2) :
    st2 =
      { st with
        data :=
          st.data.drop ((shiftColumns st.frameLength st.frameStep samples.length
              st.audioBufferIndex).toNat * st.numMelBins) ++
            ((List.range (shiftColumns st.frameLength st.frameStep samples.length
              st.audioBufferIndex).toNat).map
                (melRow P st (workingSamples st samples))).flatten
        audioBuffer :=
          (workingSamples st samples).drop
              ((shiftColumns st.frameLength st.frameStep samples.length
                st.audioBufferIndex).toNat * st.frameStep) ++
            st.audioBuffer.drop
              (nextAudioBufferIndex st.frameLength st.frameStep samples.length
                st.audioBufferIndex).toNat
        audioBufferIndex :=
          nextAudioBufferIndex st.frameLength st.frameStep samples.length
            st.audioBufferIndex } := by
  obtain ⟨hwf, hS, hSL, hc0, hcL⟩ := hr
  obtain ⟨hk0, hkW⟩ := write_some_shift P st st2 samples h
  have hSi : (0 : Int) < (st.frameStep : Int) := by exact_mod_cast hS
  have hSLi : (st.frameStep : Int) ≤ (st.frameLength : Int) := by exact_mod_cast hSL
  have hb := nextAudioBufferIndex_bounds st.frameLength st.frameStep samples.length
    st.audioBufferIndex hSi hSLi hc0 (by omega)
  rw [write_eq_some P st samples hwf hS hc0 hcL.le hk0 hkW hb.1 hb.2.le] at h
  exact (Option.some.inj h).symm

/-- Frame counts add up: when the first chunk reaches the steady state, the
frame count of the joined chunk is the sum of the frame counts of the two
successive writes, and the carry counts agree. -/
theorem shiftColumns_split (L S a b c : Int) (hS : 0 < S) (ha : L - S ≤ a + c) (hb : 0 ≤ b) :
    shiftColumns L S (a + b) c =
      shiftColumns L S a c + shiftColumns L S b (nextAudioBufferIndex L S a c) ∧
    nextAudioBufferIndex L S (a + b) c =
      nextAudioBufferIndex L S b (nextAudioBufferIndex L S a c) ∧
    0 ≤ shiftColumns L S a c ∧ 0 ≤ shiftColumns L S b (nextAudioBufferIndex L S a c) := by
  have hnext := nextAudioBufferIndex_of_nonneg L S a c hS ha
  have h1 := Int.emod_nonneg (a + c - (L - S)) hS.ne'
  have hk1 := shiftColumns_of_nonneg L S a c hS ha
  have hk2 := shiftColumns_of_nonneg L S b (nextAudioBufferIndex L S a c) hS (by omega)
  have hk12 := shiftColumns_of_nonneg L S (a + b) c hS (by omega)
  have hdiv := Int.ediv_add_emod (a + c - (L - S)) S
  have e2 : b + nextAudioBufferIndex L S a c - (L - S) = b + (a + c - (L - S)) % S := by
    rw [hnext]
    ring
  have e12 : a + b + c - (L - S) =
      (b + (a + c - (L - S)) % S) + S * ((a + c - (L - S)) / S) := by
    linarith
  have hsum : shiftColumns L S (a + b) c =
      shiftColumns L S a c + shiftColumns L S b (nextAudioBufferIndex L S a c) := by
    rw [hk12, hk1, hk2, e2, e12, Int.add_mul_ediv_left _ _ hS.ne']
    ring
  refine ⟨hsum, ?_, ?_, ?_⟩
  · unfold nextAudioBufferIndex
    rw [hsum]
    unfold nextAudioBufferIndex
    ring
  · rw [hk1]
    exact Int.ediv_nonneg (by omega) hS.le
  · rw [hk2, e2]
    exact Int.ediv_nonneg (by omega) hS.le

/-- C18 (chunking independence).  For an engine with `0 < S ≤ L`,
`0 ≤ carry < L` and `N ≤ L` (in particular `N = L`), and two chunks `A` and `B`
with `carry + |A| ≥ L - S` whose joined write produces at most `W` columns (the
number of columns of the two successive writes together): `write(A)` followed
by `write(B)` and the single call `write(A ++ B)` all return, and they leave
the same spectrogram buffer, the same carry count and the same carried
samples. -/
theorem write_chunking (P : Platform F) (st : Engine F) (A B : List Int)
    (hwf : WellFormed st)
    (hS : 0 < st.frameStep) (hSL : st.frameStep ≤ st.frameLength)
    (hc0 : 0 ≤ st.audioBufferIndex) (hcL : st.audioBufferIndex < (st.frameLength : Int))
    (hN : st.fftSize ≤ st.frameLength)
    (hge : (st.frameLength : Int) - st.frameStep ≤ A.length + st.audioBufferIndex)
    (hW : shiftColumns st.frameLength st.frameStep (A ++ B).length st.audioBufferIndex ≤
      (st.width : Int)) :
    ∃ st1 st2 st12 : Engine F,
      write P st A = some st1 ∧ write P st1 B = some st2 ∧
      write P st (A ++ B) = some st12 ∧
      st2.data = st12.data ∧ st2.audioBufferIndex = st12.audioBufferIndex ∧
      st2.audioBuffer.take st2.audioBufferIndex.toNat =
        st12.audioBuffer.take st12.audioBufferIndex.toNat := by
  have hr : Ready st := ⟨hwf, hS, hSL, hc0, hcL⟩
  have hSi : (0 : Int) < (st.frameStep : Int) := by exact_mod_cast hS
  have hSLi : (st.frameStep : Int) ≤ (st.frameLength : Int) := by exact_mod_cast hSL
  have hlenAB : (((A ++ B).length : Nat) : Int) = (A.length : Int) + (B.length : Int) := by
    rw [List.length_append]
    push_cast
    rfl
  rw [hlenAB] at hW
  obtain ⟨hsum, hnextsum, hk1, hk2⟩ := shiftColumns_split st.frameLength st.frameStep
    A.length B.length st.audioBufferIndex hSi hge (Int.natCast_nonneg _)
  have hb1 := nextAudioBufferIndex_bounds st.frameLength st.frameStep A.length
    st.audioBufferIndex hSi hSLi hc0 (Int.natCast_nonneg _)
  have hb12 := nextAudioBufferIndex_bounds st.frameLength st.frameStep
    ((A.length : Int) + (B.length : Int)) st.audioBufferIndex hSi hSLi hc0 (by omega)
  -- the first write
  obtain ⟨st1, hw1⟩ : ∃ st1, write P st A = some st1 :=
    ⟨_, write_eq_some P st A hwf hS hc0 hcL.le hk1 (by omega) hb1.1 hb1.2.le⟩
  have heq1 := write_some_eq P st st1 A hr hw1
  obtain ⟨hr1, hW1, hM1, hL1, hS1, hidx1, -, -⟩ := write_step P st st1 A hr hw1
  have hk2eq : shiftColumns st1.frameLength st1.frameStep B.length st1.audioBufferIndex =
      shiftColumns st.frameLength st.frameStep B.length
        (nextAudioBufferIndex st.frameLength st.frameStep A.length st.audioBufferIndex) := by
    rw [hL1, hS1, hidx1]
  have hn2eq : nextAudioBufferIndex st1.frameLength st1.frameStep B.length
      st1.audioBufferIndex =
      nextAudioBufferIndex st.frameLength st.frameStep ((A.length : Int) + B.length)
        st.audioBufferIndex := by
    rw [hL1, hS1, hidx1, hnextsum]
  -- the second write
  obtain ⟨st2, hw2⟩ : ∃ st2, write P st1 B = some st2 :=
    ⟨_, write_eq_some P st1 B hr1.1 hr1.2.1 hr1.2.2.2.1 hr1.2.2.2.2.le
      (by rw [hk2eq]; exact hk2) (by rw [hk2eq, hW1]; omega)
      (by rw [hn2eq]; exact hb12.1) (by rw [hn2eq, hL1]; exact hb12.2.le)⟩
  have heq2 := write_some_eq P st1 st2 B hr1 hw2
  -- the single write
  obtain ⟨st12, hw12⟩ : ∃ st12, write P st (A ++ B) = some st12 :=
    ⟨_, write_eq_some P st (A ++ B) hwf hS hc0 hcL.le
      (by rw [hlenAB, hsum]; omega) (by rw [hlenAB]; exact hW)
      (by rw [hlenAB]; exact hb12.1) (by rw [hlenAB]; exact hb12.2.le)⟩
  have heq12 := write_some_eq P st st12 (A ++ B) hr hw12
  -- the fields of the three states
  have hd1 : st1.data = _ := congrArg Engine.data heq1
  have ha1 : st1.audioBuffer = _ := congrArg Engine.audioBuffer heq1
  have hsc1 : st1.inputScale = st.inputScale := by rw [heq1]
  have hwin1 : st1.window = st.window := by rw [heq1]
  have hwm1 : st1.weightMatrix = st.weightMatrix := by rw [heq1]
  have hfft1 : st1.fftSize = st.fftSize := by rw [heq1]
  have hd2 : st2.data = _ := congrArg Engine.data heq2
  have ha2 : st2.audioBuffer = _ := congrArg Engine.audioBuffer heq2
  have hi2 : st2.audioBufferIndex = _ := congrArg Engine.audioBufferIndex heq2
  have hd12 : st12.data = _ := congrArg Engine.data heq12
  have ha12 : st12.audioBuffer = _ := congrArg Engine.audioBuffer heq12
  have hi12 : st12.audioBufferIndex = _ := congrArg Engine.audioBufferIndex heq12
  simp only [] at hd1 ha1 hd2 ha2 hi2 hd12 ha12 hi12
  rw [hk2eq, hM1] at hd2
  rw [hk2eq, hn2eq, hS1] at ha2
  rw [hn2eq] at hi2
  rw [hlenAB, hsum] at hd12
  rw [hlenAB, hsum] at ha12
  rw [hlenAB] at hi12
  -- lengths of the working sequences
  have hws1 := length_workingSamples st A hc0 (by rw [hwf.2.1]; exact hcL.le)
  have hws12 := length_workingSamples st (A ++ B) hc0 (by rw [hwf.2.1]; exact hcL.le)
  rw [hlenAB] at hws12
  have hJ1 : nextAudioBufferIndex st.frameLength st.frameStep A.length st.audioBufferIndex =
      (A.length + st.audioBufferIndex) -
        shiftColumns st.frameLength st.frameStep A.length st.audioBufferIndex *
          st.frameStep := rfl
  have hJ12 : nextAudioBufferIndex st.frameLength st.frameStep
      ((A.length : Int) + B.length) st.audioBufferIndex =
      ((A.length : Int) + B.length + st.audioBufferIndex) -
        shiftColumns st.frameLength st.frameStep ((A.length : Int) + B.length)
          st.audioBufferIndex * st.frameStep := rfl
  rw [hsum] at hJ12
  -- reads of the frames of the two one-chunk writes and of the joined write
  have hin1 : ∀ i : Nat,
      (i : Int) < shiftColumns st.frameLength st.frameStep A.length st.audioBufferIndex →
      ∀ j, j < st.fftSize → i * st.frameStep + j < (workingSamples st A).length := by
    intro i hi j hj
    apply (frame_reads_in_bounds st A hwf hS hc0 hcL.le hN hge i hi).2
    simp only [sampleReads, List.mem_map, List.mem_range]
    exact ⟨j, hj, rfl⟩
  have hin12 : ∀ i : Nat,
      (i : Int) < shiftColumns st.frameLength st.frameStep A.length st.audioBufferIndex +
        shiftColumns st.frameLength st.frameStep B.length
          (nextAudioBufferIndex st.frameLength st.frameStep A.length st.audioBufferIndex) →
      ∀ j, j < st.fftSize → i * st.frameStep + j < (workingSamples st (A ++ B)).length := by
    intro i hi j hj
    apply (frame_reads_in_bounds st (A ++ B) hwf hS hc0 hcL.le hN
      (by rw [hlenAB]; omega) i (by rw [hlenAB, hsum]; exact hi)).2
    simp only [sampleReads, List.mem_map, List.mem_range]
    exact ⟨j, hj, rfl⟩
  rw [hsum] at hW
  -- natural-number names for the frame counts and the carry counts
  generalize shiftColumns st.frameLength st.frameStep B.length
    (nextAudioBufferIndex st.frameLength st.frameStep A.length st.audioBufferIndex) = K2 at *
  generalize nextAudioBufferIndex st.frameLength st.frameStep
    ((A.length : Int) + B.length) st.audioBufferIndex = J12 at *
  generalize nextAudioBufferIndex st.frameLength st.frameStep A.length
    st.audioBufferIndex = J1 at *
  generalize shiftColumns st.frameLength st.frameStep A.length st.audioBufferIndex = K1 at *
  obtain ⟨k1, rfl⟩ := Int.eq_ofNat_of_zero_le hk1
  obtain ⟨k2, rfl⟩ := Int.eq_ofNat_of_zero_le hk2
  obtain ⟨j1, rfl⟩ := Int.eq_ofNat_of_zero_le hb1.1
  obtain ⟨j12, rfl⟩ := Int.eq_ofNat_of_zero_le hb12.1
  have hk12n : ((k1 : Int) + (k2 : Int)).toNat = k1 + k2 := by
    rw [← Nat.cast_add, Int.toNat_ofNat]
  simp only [Int.toNat_ofNat, hk12n] at hd1 ha1 hd2 ha2 hd12 ha12 hin1 hin12
  have hkW : k1 + k2 ≤ st.width := by exact_mod_cast hW
  have hl1 : (workingSamples st A).length = k1 * st.frameStep + j1 := by
    have : (((workingSamples st A).length : Nat) : Int) =
        ((k1 * st.frameStep + j1 : Nat) : Int) := by
      push_cast
      rw [hws1]
      linarith
    exact_mod_cast this
  have hl12 : (workingSamples st (A ++ B)).length = (k1 + k2) * st.frameStep + j12 := by
    have : (((workingSamples st (A ++ B)).length : Nat) : Int) =
        (((k1 + k2) * st.frameStep + j12 : Nat) : Int) := by
      push_cast
      rw [hws12]
      linarith
    exact_mod_cast this
  -- the working sequence of the second write is a suffix of the joined sequence
  have hsplit12 : workingSamples st (A ++ B) =
      workingSamples st A ++ B.map (toFloat st.inputScale) := by
    simp only [workingSamples, List.map_append, List.append_assoc]
  have hws2 : workingSamples st1 B =
      (workingSamples st (A ++ B)).drop (k1 * st.frameStep) := by
    have hdl : ((workingSamples st A).drop (k1 * st.frameStep)).length = j1 := by
      rw [List.length_drop]
      omega
    rw [hsplit12, List.drop_append_of_le_length (by omega)]
    show st1.audioBuffer.take st1.audioBufferIndex.toNat ++ B.map (toFloat st1.inputScale) = _
    rw [hidx1, Int.toNat_ofNat, ha1, hsc1, List.take_left' hdl]
  refine ⟨st1, st2, st12, hw1, hw2, hw12, ?_, ?_, ?_⟩
  · -- the spectrogram
    have hrows1 : (List.range k1).map (melRow P st (workingSamples st A)) =
        (List.range k1).map (melRow P st (workingSamples st (A ++ B))) := by
      apply List.map_congr_left
      intro i hi
      apply melRow_congr_samples
      intro j hj
      rw [hsplit12, peek_append_left P _ _ _ _
        (hin1 i (by exact_mod_cast List.mem_range.1 hi) j hj)]
    have hrows2 : (List.range k2).map (melRow P st1 (workingSamples st1 B)) =
        ((List.range k2).map fun i => k1 + i).map
          (melRow P st (workingSamples st (A ++ B))) := by
      rw [List.map_map]
      apply List.map_congr_left
      intro i hi
      rw [melRow_congr_engine P st st1 _ i hM1 hfft1 hS1 hwin1 hwm1, hws2]
      apply melRow_congr_samples
      intro j hj
      have hlt : (k1 + i) * st.frameStep + j < (workingSamples st (A ++ B)).length :=
        hin12 (k1 + i) (by
          have := List.mem_range.1 hi
          push_cast
          omega) j hj
      have e : k1 * st.frameStep + (i * st.frameStep + j) = (k1 + i) * st.frameStep + j := by
        ring
      rw [peek_drop P _ _ _ _ (by rw [e]; exact hlt), e]
    have hlenA : (st.data.drop (k1 * st.numMelBins)).length =
        (st.width - k1) * st.numMelBins := by
      rw [List.length_drop, hwf.1, Nat.sub_mul]
    have hk2le : k2 * st.numMelBins ≤ (st.data.drop (k1 * st.numMelBins)).length := by
      rw [hlenA]
      exact Nat.mul_le_mul_right _ (by omega)
    rw [hd2, hd12, hd1, hrows1, hrows2, List.drop_append_of_le_length hk2le, List.drop_drop,
      List.range_add, List.map_append, List.flatten_append, List.append_assoc]
    congr 2
    ring
  · -- the carry count
    rw [hi2, hi12]
  · -- the carried samples
    rw [hi2, hi12, Int.toNat_ofNat, ha2, ha12, hws2, List.drop_drop]
    have e : k1 * st.frameStep + k2 * st.frameStep = (k1 + k2) * st.frameStep := by ring
    rw [e]
    have hdl : ((workingSamples st (A ++ B)).drop ((k1 + k2) * st.frameStep)).length = j12 := by
      rw [List.length_drop]
      omega
    rw [List.take_left' hdl, List.take_left' hdl]

/-- Evaluation of `write_chunking` on `steadyEngine` (`L = 3`, `S = 2`, `N = 2`,
carry `1`) with the chunks `[100]` and `[200, 300]`. -/
theorem write_chunking_witness :
    WellFormed steadyEngine ∧
    0 < steadyEngine.frameStep ∧ steadyEngine.frameStep ≤ steadyEngine.frameLength ∧
    0 ≤ steadyEngine.audioBufferIndex ∧
    steadyEngine.audioBufferIndex < (steadyEngine.frameLength : Int) ∧
    steadyEngine.fftSize ≤ steadyEngine.frameLength ∧
    (steadyEngine.frameLength : Int) - steadyEngine.frameStep ≤
      ([100] : List Int).length + steadyEngine.audioBufferIndex ∧
    shiftColumns steadyEngine.frameLength steadyEngine.frameStep
      (([100] : List Int) ++ [200, 300]).length steadyEngine.audioBufferIndex ≤
        (steadyEngine.width : Int) ∧
    ∃ st1 st2 st12 : Engine ℚ,
      write samplePlatform steadyEngine [100] = some st1 ∧
      write samplePlatform st1 [200, 300] = some st2 ∧
      write samplePlatform steadyEngine ([100] ++ [200, 300]) = some st12 ∧
      st2.data = st12.data ∧ st2.audioBufferIndex = st12.audioBufferIndex ∧
      st2.audioBuffer.take st2.audioBufferIndex.toNat =
        st12.audioBuffer.take st12.audioBufferIndex.toNat :=
  ⟨⟨rfl, rfl, rfl⟩, by decide, by decide, by decide, by decide, by decide, by decide,
    by decide,
    write_chunking samplePlatform steadyEngine [100] [200, 300] ⟨rfl, rfl, rfl⟩ (by decide)
      (by decide) (by decide) (by decide) (by decide) (by decide) (by decide)⟩


/-! ## Frames that reach past the arrays (`N > L`) -/

theorem peek_of_le (P : Platform F) (reg : Region) (xs : List F) (j : Nat)
    (h : xs.length ≤ j) : peek P reg xs j = P.stray reg j := by
  unfold peek
  rw [List.getElem?_eq_none h]

theorem peek_windowedInput (P : Platform F) (reg : Region) (st : Engine F)
    (fSamples : List F) (i j : Nat) (h : j < st.fftSize) :
    peek P reg (windowedInput P st fSamples i) j =
      peek P Region.window st.window j *
        peek P Region.samples fSamples (i * st.frameStep + j) := by
  unfold peek windowedInput
  rw [List.getElem?_map, List.getElem?_range h]
  rfl

theorem peek_fftMag (P : Platform F) (reg : Region) (st : Engine F) (windowed : List F)
    (b : Nat) (h : b < fftMagSize st) (hb : b ≠ st.fftSize / 2) (hb0 : b ≠ 0) :
    peek P reg (fftMag P st windowed) b =
      P.sqrt (peek P Region.spectrum (P.rfft windowed) (2 * b) *
                peek P Region.spectrum (P.rfft windowed) (2 * b)
              + peek P Region.spectrum (P.rfft windowed) (2 * b + 1) *
                peek P Region.spectrum (P.rfft windowed) (2 * b + 1)) := by
  have key : (fftMag P st windowed)[b]? =
      some (P.sqrt (peek P Region.spectrum (P.rfft windowed) (2 * b) *
                peek P Region.spectrum (P.rfft windowed) (2 * b)
              + peek P Region.spectrum (P.rfft windowed) (2 * b + 1) *
                peek P Region.spectrum (P.rfft windowed) (2 * b + 1))) := by
    unfold fftMag
    rw [List.getElem?_map, List.getElem?_range h]
    simp only [Option.map_some', if_neg hb, if_neg hb0]
  rw [peek, key]

theorem fftMag_nonneg (P : Platform F) (st : Engine F) (windowed : List F)
    (hsqrt : ∀ y, 0 ≤ P.sqrt y) : ∀ x ∈ fftMag P st windowed, 0 ≤ x := by
  intro x hx
  obtain ⟨b, -, rfl⟩ := List.mem_map.1 hx
  split_ifs
  · exact abs_nonneg _
  · exact abs_nonneg _
  · exact hsqrt _

theorem foldl_add_eq_sum (g : Nat → F) :
    ∀ (l : List Nat) (acc : F),
      l.foldl (fun mel k => mel + g k) acc = acc + (l.map g).sum := by
  intro l
  induction l with
  | nil => intro acc; simp
  | cons k l ih =>
    intro acc
    rw [List.foldl_cons, ih, List.map_cons, List.sum_cons, add_assoc]

/-- With every weight of row `j` equal to `1`, the projection is the sum of the
magnitudes. -/
theorem melDot_unit_weights (P : Platform F) (st : Engine F) (mag : List F) (j : Nat)
    (hw : ∀ k, k < fftMagSize st →
      peek P Region.weights st.weightMatrix (j * fftMagSize st + k) = 1) :
    melDot P st mag j =
      ((List.range (fftMagSize st)).map fun k => peek P Region.spectrum mag k).sum := by
  unfold melDot
  rw [foldl_add_eq_sum, zero_add]
  congr 1
  apply List.map_congr_left
  intro k hk
  rw [hw k (List.mem_range.1 hk), one_mul]


theorem length_fftMag (P : Platform F) (st : Engine F) (windowed : List F) :
    (fftMag P st windowed).length = fftMagSize st := by
  simp [fftMag]

/-- A frame in which the two cells of one interior bin `b` of the transform
input are `1` (as happens when window and samples are read past their ends in
memory holding `1`), with the exact logarithm and square root, a transform that
returns its input, and unit weights: every cell of the row is
`10 * log10(m * m)` for one projected value `m ≥ 1`. -/
theorem melRow_of_unit_bin (P : Platform ℝ) (st : Engine ℝ) (fSamples : List ℝ) (i b : Nat)
    (hlog : P.logf = Real.log) (hsqrt : P.sqrt = Real.sqrt) (hrfft : ∀ xs, P.rfft xs = xs)
    (hw : ∀ j, j < st.numMelBins → ∀ k, k < fftMagSize st →
      peek P Region.weights st.weightMatrix (j * fftMagSize st + k) = 1)
    (hb0 : 0 < b) (hbN : b < st.fftSize / 2)
    (h1 : peek P Region.window st.window (2 * b) *
      peek P Region.samples fSamples (i * st.frameStep + 2 * b) = 1)
    (h2 : peek P Region.window st.window (2 * b + 1) *
      peek P Region.samples fSamples (i * st.frameStep + (2 * b + 1)) = 1) :
    ∃ m : ℝ, 1 ≤ m ∧
      melRow P st fSamples i =
        List.replicate st.numMelBins (10 * Real.log (m * m) / Real.log 10) := by
  have hbs : b < fftMagSize st := by
    unfold fftMagSize
    omega
  have hmagb : peek P Region.spectrum (fftMag P st (windowedInput P st fSamples i)) b =
      Real.sqrt (1 * 1 + 1 * 1) := by
    rw [peek_fftMag P _ st _ b hbs (by omega) (by omega), hrfft,
      peek_windowedInput P _ st fSamples i (2 * b) (by omega),
      peek_windowedInput P _ st fSamples i (2 * b + 1) (by omega), h1, h2, hsqrt]
  have hnn : ∀ x ∈ (List.range (fftMagSize st)).map
      (fun k => peek P Region.spectrum (fftMag P st (windowedInput P st fSamples i)) k),
      0 ≤ x := by
    intro x hx
    obtain ⟨k, hk, rfl⟩ := List.mem_map.1 hx
    apply fftMag_nonneg P st (windowedInput P st fSamples i)
      (by intro y; rw [hsqrt]; exact Real.sqrt_nonneg y)
    apply peek_mem
    rw [length_fftMag]
    exact List.mem_range.1 hk
  have hone : (1 : ℝ) ≤ Real.sqrt (1 * 1 + 1 * 1) := by
    rw [Real.le_sqrt' (by norm_num : (0 : ℝ) < 1)]
    norm_num
  have hm : (1 : ℝ) ≤ ((List.range (fftMagSize st)).map
      (fun k => peek P Region.spectrum (fftMag P st (windowedInput P st fSamples i)) k)).sum := by
    refine le_trans hone ?_
    rw [← hmagb]
    exact List.single_le_sum hnn _ (List.mem_map.2 ⟨b, List.mem_range.2 hbs, rfl⟩)
  refine ⟨_, hm, ?_⟩
  have hmm : ¬ (((List.range (fftMagSize st)).map
      (fun k => peek P Region.spectrum (fftMag P st (windowedInput P st fSamples i)) k)).sum *
      ((List.range (fftMagSize st)).map
      (fun k => peek P Region.spectrum (fftMag P st (windowedInput P st fSamples i)) k)).sum
        < 1 / 1000000) := by
    have := mul_le_mul hm hm zero_le_one (le_trans zero_le_one hm)
    intro hlt
    linarith
  rw [List.eq_replicate_iff]
  constructor
  · simp [melRow]
  · intro v hv
    obtain ⟨j, hj, rfl⟩ := List.mem_map.1 hv
    rw [melDot_unit_weights P st _ j (hw j (List.mem_range.1 hj))]
    simp only [melValue, hlog, if_neg hmm]


/-- One write of `S` samples in the steady state (carry `L - S`): one row, the
row of frame `0` of the working sequence, is appended.  The transform size is
not constrained: a frame that reaches past the arrays takes the cells past
them from the ambient memory. -/
theorem write_one_column (P : Platform F) (st : Engine F) (samples : List Int)
    (hr : Ready st) (hW : 0 < st.width)
    (hidx : st.audioBufferIndex = (st.frameLength : Int) - st.frameStep)
    (hlen : samples.length = st.frameStep) :
    shiftColumns st.frameLength st.frameStep samples.length st.audioBufferIndex = 1 ∧
    ∃ st2 : Engine F, write P st samples = some st2 ∧
      st2.data = st.data.drop st.numMelBins ++ melRow P st (workingSamples st samples) 0 := by
  obtain ⟨hwf, hS, hSL, hc0, hcL⟩ := hr
  have hSi : (0 : Int) < (st.frameStep : Int) := by exact_mod_cast hS
  have hk : shiftColumns st.frameLength st.frameStep samples.length st.audioBufferIndex = 1 := by
    rw [hlen]
    unfold shiftColumns
    rw [hidx]
    have e : (st.frameStep : Int) + ((st.frameLength : Int) - st.frameStep) -
        ((st.frameLength : Int) - st.frameStep) = st.frameStep := by ring
    rw [e]
    exact Int.tdiv_self hSi.ne'
  have hnext : nextAudioBufferIndex st.frameLength st.frameStep samples.length
      st.audioBufferIndex = st.audioBufferIndex := by
    unfold nextAudioBufferIndex
    rw [hk, hlen]
    ring
  have hw := write_eq_some P st samples hwf hS hc0 hcL.le (by rw [hk]; decide)
    (by rw [hk]; exact_mod_cast hW) (by rw [hnext]; exact hc0) (by rw [hnext]; exact hcL.le)
  rw [hk, hnext] at hw
  simp only [Int.toNat_one, Nat.one_mul] at hw
  refine ⟨hk, _, hw, ?_⟩
  show st.data.drop st.numMelBins ++
      ((List.range 1).map (melRow P st (workingSamples st samples))).flatten = _
  have e : List.range 1 = [0] := rfl
  rw [e, List.map_singleton, List.flatten_cons, List.flatten_nil, List.append_nil]

/-- C16 (silent input), evaluation at the failing input.  Geometry `L = 480`,
`S = 160`, `W = 20`, `M = 10`, `N = 512`, steady state with `320` carried zero
samples, one write of `160` zero samples; exact logarithm and square root, a
transform that returns its input (the zero frame gives the zero spectrum), unit
mel weights, and memory holding `1` past the arrays.  The frame length is less
than the transform size; the `480` samples of the frame are all zero; the
write produces one row; that row holds `10 * log10(m * m)` in every cell for a
projected value `m ≥ 1`, a value that is at least `0`: no cell of the row is
`-60`. -/
theorem silent_frame_not_floor :
    overreadReal.frameStep ≤ overreadReal.frameLength ∧
    overreadReal.frameLength < overreadReal.fftSize ∧
    workingSamples overreadReal (List.replicate 160 0) = List.replicate 480 0 ∧
    shiftColumns overreadReal.frameLength overreadReal.frameStep
      (List.replicate 160 (0 : Int)).length overreadReal.audioBufferIndex = 1 ∧
    ∃ (m : ℝ) (st2 : Engine ℝ),
      1 ≤ m ∧ 0 ≤ 10 * Real.log (m * m) / Real.log 10 ∧
      melRow (Platform.mk (fun xs => xs) Real.sqrt Real.log Real.cos Real.pi
          (fun _ => true) (fun _ x => x) (fun _ _ => 1)) overreadReal
        (workingSamples overreadReal (List.replicate 160 0)) 0 =
        List.replicate 10 (10 * Real.log (m * m) / Real.log 10) ∧
      write (Platform.mk (fun xs => xs) Real.sqrt Real.log Real.cos Real.pi
          (fun _ => true) (fun _ x => x) (fun _ _ => 1)) overreadReal
        (List.replicate 160 0) = some st2 ∧
      st2.data = List.replicate 190 0 ++
        List.replicate 10 (10 * Real.log (m * m) / Real.log 10) := by
  have hr : Ready overreadReal :=
    ⟨⟨List.length_replicate 200 (0 : ℝ), List.length_replicate 480 (0 : ℝ),
      List.length_replicate 480 (0 : ℝ)⟩, by decide, by decide, by decide, by decide⟩
  have hlen : (List.replicate 160 (0 : Int)).length = 160 := List.length_replicate 160 0
  have hws : workingSamples overreadReal (List.replicate 160 0) = List.replicate 480 0 := by
    rw [List.eq_replicate_iff]
    constructor
    · have h := length_workingSamples overreadReal (List.replicate 160 0) hr.2.2.2.1
        (by rw [hr.1.2.1]; exact hr.2.2.2.2.le)
      rw [hlen] at h
      have e : overreadReal.audioBufferIndex = 320 := rfl
      rw [e] at h
      omega
    · intro x hx
      rcases List.mem_append.1 hx with h | h
      · exact List.eq_of_mem_replicate (List.mem_of_mem_take h)
      · obtain ⟨y, hy, rfl⟩ := List.mem_map.1 h
        rw [List.eq_of_mem_replicate hy]
        simp [toFloat]
  have hsz : fftMagSize overreadReal = 257 := rfl
  have hM : overreadReal.numMelBins = 10 := rfl
  have hwl : overreadReal.window.length = 480 := List.length_replicate 480 (0 : ℝ)
  obtain ⟨hk, st2, hwrite, hdata⟩ := write_one_column
    (Platform.mk (fun xs => xs) Real.sqrt Real.log Real.cos Real.pi
      (fun _ => true) (fun _ x => x) (fun _ _ => 1)) overreadReal (List.replicate 160 0)
    hr (by decide) (by decide) hlen
  obtain ⟨m, hm, hrow⟩ := melRow_of_unit_bin
    (Platform.mk (fun xs => xs) Real.sqrt Real.log Real.cos Real.pi
      (fun _ => true) (fun _ x => x) (fun _ _ => 1)) overreadReal
    (workingSamples overreadReal (List.replicate 160 0)) 0 240 rfl rfl (fun _ => rfl)
    (by
      intro j hj k hk
      rw [hsz] at hk ⊢
      rw [hM] at hj
      exact peek_replicate _ _ 2570 _ 1 (by omega))
    (by decide) (by decide)
    (by
      rw [hws, peek_of_le _ _ _ _ (le_of_eq_of_le hwl (by decide)),
        peek_of_le _ _ _ _ (le_of_eq_of_le (List.length_replicate 480 (0 : ℝ)) (by decide))]
      norm_num)
    (by
      rw [hws, peek_of_le _ _ _ _ (le_of_eq_of_le hwl (by decide)),
        peek_of_le _ _ _ _ (le_of_eq_of_le (List.length_replicate 480 (0 : ℝ)) (by decide))]
      norm_num)
  rw [hM] at hrow
  have hval : 0 ≤ 10 * Real.log (m * m) / Real.log 10 := by
    have h10 : (0 : ℝ) < Real.log 10 := Real.log_pos (by norm_num)
    have hmm : (1 : ℝ) ≤ m * m :=
      le_of_eq_of_le (one_mul (1 : ℝ)).symm
        (mul_le_mul hm hm zero_le_one (le_trans zero_le_one hm))
    exact div_nonneg (mul_nonneg (by norm_num) (Real.log_nonneg hmm)) h10.le
  refine ⟨by decide, by decide, hws, hk, m, st2, hm, hval, hrow, hwrite, ?_⟩
  rw [hdata, hrow, hM]
  have hd : overreadReal.data = List.replicate 200 0 := rfl
  rw [hd, List.drop_replicate]


end QuantizedMelPowerSpectrogram
